import Mathlib

/-!
Verification development for the live-session context synchronizer of the
astra repository (scripts/elevenlabs_agent_runner.py and
scripts/minimal_sdk_runner.py).

Strings are embedded as `List Char` (Python `str`).  JSON-like Python values
(the result of `json.load`) are embedded as the mutual inductive `JVal`.
Python truthiness, `str.replace`, `str.strip`, `re.sub` for the placeholder
pattern, `json.dumps` (default separators, `ensure_ascii=False`) and
`json.loads` are modelled explicitly.  Functions whose natural recursion is
not structural are driven by an explicit fuel argument that is always large
enough (each step consumes at least one character), so that every definition
is executable by kernel reduction.
-/

abbrev Chars := List Char

/-- The opening-brace character (written by code so that no brace appears in a
string literal). -/
def obr : Char := '\x7b'

/-- The closing-brace character. -/
def cbr : Char := '\x7d'

/-- A character that is neither an opening nor a closing brace
(the regex character class excluding both braces). -/
def nonBrace (c : Char) : Bool := !(c = obr) && !(c = cbr)

/-- Python whitespace for `str.strip()` (ASCII fragment). -/
def isPyWs (c : Char) : Bool :=
  c = ' ' || c = '\t' || c = '\n' || c = '\r' || c = '\x0b' || c = '\x0c'

/-- Python `s.strip()`: remove leading and trailing whitespace. -/
def pyStrip (s : Chars) : Chars :=
  ((s.dropWhile isPyWs).reverse.dropWhile isPyWs).reverse

/-- Python truthiness of an optional string (`None` and `""` are falsy). -/
def truthyO : Option Chars → Bool
  | none => false
  | some s => !s.isEmpty

/-- Whether `sub` occurs as a contiguous substring of `s` (Python `sub in s`). -/
def containsSub : Chars → Chars → Bool
  | s, sub =>
    if sub.isPrefixOf s then true
    else match s with
      | [] => false
      | _ :: r => containsSub r sub

/-- Join a list of strings with a separator (Python `sep.join(xs)`). -/
def joinSep (sep : Chars) : List Chars → Chars
  | [] => []
  | [x] => x
  | x :: y :: r => x ++ sep ++ joinSep sep (y :: r)

/-! ### JSON-like Python values -/

mutual
/-- A Python value as produced by `json.load`: `None`, `bool`, `int`, `str`,
`list`, `dict` (float values are outside the model).  Object fields and array
elements use the mutual types `JObj` and `JArr` so that all functions on them
are structurally recursive. -/
inductive JVal where
  | null : JVal
  | bool : Bool → JVal
  | int : Int → JVal
  | str : Chars → JVal
  | arr : JArr → JVal
  | obj : JObj → JVal
deriving DecidableEq
/-- A Python list of `JVal`s. -/
inductive JArr where
  | nil : JArr
  | cons : JVal → JArr → JArr
deriving DecidableEq
/-- A Python dict with string keys and `JVal` values, in insertion order. -/
inductive JObj where
  | nil : JObj
  | cons : Chars → JVal → JObj → JObj
deriving DecidableEq
end

/-- Python truthiness of a `JVal`. -/
def jTruthy : JVal → Bool
  | .null => false
  | .bool b => b
  | .int n => !(n = 0)
  | .str s => !s.isEmpty
  | .arr a => !(a = .nil)
  | .obj o => !(o = .nil)

/-- Python `d.get(k)` on an embedded dict: the first binding of `k`, with
`None` (here `JVal.null`, the embedding of Python `None`) when absent. -/
def jGetD : JObj → Chars → JVal
  | .nil, _ => .null
  | .cons k v tl, key => if k = key then v else jGetD tl key

/-- The decimal digit character for `n < 10`. -/
def digChar (n : Nat) : Char := Char.ofNat (48 + n)

/-- Decimal digits of `n`, most significant first, computed with explicit fuel
(`fuel > n` suffices). -/
def natReprAux : Nat → Nat → Chars
  | 0, _ => []
  | f+1, n =>
    if n < 10 then [digChar n]
    else natReprAux f (n / 10) ++ [digChar (n % 10)]

/-- Python `str(n)` for a nonnegative integer. -/
def natRepr (n : Nat) : Chars := natReprAux (n + 1) n

/-- Python `str(n)` for an `int`. -/
def intRepr (n : Int) : Chars :=
  if n < 0 then '-' :: natRepr (-n).toNat else natRepr n.toNat

/-! ### `json.dumps` (default separators, `ensure_ascii=False`) -/

/-- Lowercase hexadecimal digit for `n < 16`. -/
def hexDigChar (n : Nat) : Char :=
  if n < 10 then Char.ofNat (48 + n) else Char.ofNat (87 + n)

/-- How `json.dumps` renders one character inside a string literal. -/
def escChar (c : Char) : Chars :=
  if c = '"' then ['\\', '"']
  else if c = '\\' then ['\\', '\\']
  else if c = '\n' then ['\\', 'n']
  else if c = '\t' then ['\\', 't']
  else if c = '\r' then ['\\', 'r']
  else if c = '\x08' then ['\\', 'b']
  else if c = '\x0c' then ['\\', 'f']
  else if c.toNat < 32 then
    ['\\', 'u', '0', '0', hexDigChar (c.toNat / 16), hexDigChar (c.toNat % 16)]
  else [c]

/-- The body of a `json.dumps` string literal. -/
def escString (s : Chars) : Chars := s.foldr (fun c acc => escChar c ++ acc) []

mutual
/-- Model of `json.dumps(v, ensure_ascii=False)` with the default separators
`", "` and `": "`. -/
def dumps : JVal → Chars
  | .null => "null".data
  | .bool true => "true".data
  | .bool false => "false".data
  | .int n => intRepr n
  | .str s => '"' :: escString s ++ ['"']
  | .arr xs => '[' :: dumpsArr xs ++ [']']
  | .obj fs => obr :: dumpsObj fs ++ [cbr]
/-- The comma-separated rendering of array elements. -/
def dumpsArr : JArr → Chars
  | .nil => []
  | .cons x .nil => dumps x
  | .cons x (.cons y tl) => dumps x ++ ',' :: ' ' :: dumpsArr (.cons y tl)
/-- The comma-separated rendering of object entries. -/
def dumpsObj : JObj → Chars
  | .nil => []
  | .cons k v .nil => '"' :: escString k ++ '"' :: ':' :: ' ' :: dumps v
  | .cons k v (.cons k2 v2 tl) =>
      ('"' :: escString k ++ '"' :: ':' :: ' ' :: dumps v) ++
        ',' :: ' ' :: dumpsObj (.cons k2 v2 tl)
end

mutual
/-- Python `repr(v)` (simple-quoted strings, which is CPython's `repr` for
strings without quotes or control characters). -/
def pyRepr : JVal → Chars
  | .null => "None".data
  | .bool true => "True".data
  | .bool false => "False".data
  | .int n => intRepr n
  | .str s => '\'' :: s ++ ['\'']
  | .arr xs => '[' :: pyReprArr xs ++ [']']
  | .obj fs => obr :: pyReprObj fs ++ [cbr]
/-- Rendering of list elements by `repr`, comma-separated. -/
def pyReprArr : JArr → Chars
  | .nil => []
  | .cons x .nil => pyRepr x
  | .cons x (.cons y tl) => pyRepr x ++ ',' :: ' ' :: pyReprArr (.cons y tl)
/-- Rendering of dict entries by `repr`, comma-separated. -/
def pyReprObj : JObj → Chars
  | .nil => []
  | .cons k v .nil => ('\'' :: k ++ ['\'']) ++ ':' :: ' ' :: pyRepr v
  | .cons k v (.cons k2 v2 tl) =>
      (('\'' :: k ++ ['\'']) ++ ':' :: ' ' :: pyRepr v) ++
        ',' :: ' ' :: pyReprObj (.cons k2 v2 tl)
end

/-- Python `str(v)` on an arbitrary value: identity on `str`, `repr`-like
otherwise (`str(None) = "None"`, `str(True) = "True"`, decimal for ints). -/
def pyStrJ : JVal → Chars
  | .str s => s
  | v => pyRepr v

/-- The per-value stringification of `to_string_map` in both runner scripts:
dict/list values are JSON-stringified, `None` becomes the empty string, and
everything else is `str(value)`. -/
def strVal : JVal → Chars
  | .obj fs => dumps (.obj fs)
  | .arr xs => dumps (.arr xs)
  | .null => []
  | .bool true => "True".data
  | .bool false => "False".data
  | .int n => intRepr n
  | .str s => s

/-- Model of `to_string_map(d)` from `elevenlabs_agent_runner.py` (lines 113-128) and
`minimal_sdk_runner.py` (lines 56-65): convert a dict to string values. -/
def to_string_map (d : List (Chars × JVal)) : List (Chars × Chars) :=
  d.map (fun kv => (kv.1, strVal kv.2))

/-! ### A JSON parser (reference definition for the round-trip property,
and the embedding of `json.loads` for the updates-queue lines) -/

/-- JSON insignificant whitespace. -/
def isJsonWs (c : Char) : Bool := c = ' ' || c = '\t' || c = '\n' || c = '\r'

/-- Skip insignificant whitespace. -/
def skipWs (s : Chars) : Chars := s.dropWhile isJsonWs

/-- Value of one hexadecimal digit. -/
def hexVal (c : Char) : Option Nat :=
  if '0' ≤ c ∧ c ≤ '9' then some (c.toNat - 48)
  else if 'a' ≤ c ∧ c ≤ 'f' then some (c.toNat - 87)
  else if 'A' ≤ c ∧ c ≤ 'F' then some (c.toNat - 55)
  else none

/-- The character denoted by a simple JSON escape. -/
def escCode (e : Char) : Option Char :=
  if e = '"' then some '"'
  else if e = '\\' then some '\\'
  else if e = '/' then some '/'
  else if e = 'n' then some '\n'
  else if e = 't' then some '\t'
  else if e = 'r' then some '\r'
  else if e = 'b' then some '\x08'
  else if e = 'f' then some '\x0c'
  else none

/-- Parse the body of a JSON string literal (after the opening quote),
returning the decoded string and the input after the closing quote.  Raw
control characters are rejected, as by `json.loads` in strict mode.  Only
non-surrogate `\uXXXX` escapes below `0xd800` are accepted (the encoder emits
`\u00XX` only). -/
def pStrBody : Chars → Option (Chars × Chars)
  | [] => none
  | c :: r =>
    if c = '"' then some ([], r)
    else if c = '\\' then
      match r with
      | 'u' :: h1 :: h2 :: h3 :: h4 :: r2 =>
        (match hexVal h1, hexVal h2, hexVal h3, hexVal h4 with
         | some a, some b, some c2, some d =>
           let n := ((a * 16 + b) * 16 + c2) * 16 + d
           if n < 0xd800 then
             match pStrBody r2 with
             | some (s, rest) => some (Char.ofNat n :: s, rest)
             | none => none
           else none
         | _, _, _, _ => none)
      | e :: r2 =>
        (match escCode e with
         | some c2 =>
           (match pStrBody r2 with
            | some (s, rest) => some (c2 :: s, rest)
            | none => none)
         | none => none)
      | [] => none
    else if c.toNat < 32 then none
    else
      match pStrBody r with
      | some (s, rest) => some (c :: s, rest)
      | none => none

/-- Numeric value of a digit string. -/
def digitsVal (ds : Chars) : Nat := ds.foldl (fun a c => a * 10 + (c.toNat - 48)) 0

/-- Parse a JSON natural number: either a single `0`, or a nonempty digit run
not starting with `0` (a leading zero ends the number at the `0`, which makes
the enclosing parse reject, as JSON does). -/
def pNat : Chars → Option (Nat × Chars)
  | [] => none
  | c :: r =>
    if c = '0' then some (0, r)
    else if c.isDigit then
      some (digitsVal ((c :: r).takeWhile Char.isDigit), (c :: r).dropWhile Char.isDigit)
    else none

mutual
/-- Parse one JSON value.  `fuel` bounds the nesting work; any
`fuel ≥ mVal` of the value suffices. -/
def pVal : Nat → Chars → Option (JVal × Chars)
  | 0, _ => none
  | f+1, s =>
    match s with
    | [] => none
    | c :: r =>
      if c = 'n' then
        (match r with
         | 'u' :: 'l' :: 'l' :: r2 => some (.null, r2)
         | _ => none)
      else if c = 't' then
        (match r with
         | 'r' :: 'u' :: 'e' :: r2 => some (.bool true, r2)
         | _ => none)
      else if c = 'f' then
        (match r with
         | 'a' :: 'l' :: 's' :: 'e' :: r2 => some (.bool false, r2)
         | _ => none)
      else if c = '"' then
        (match pStrBody r with
         | some (str, rest) => some (.str str, rest)
         | none => none)
      else if c = '[' then
        (match skipWs r with
         | [] => none
         | c2 :: r2 =>
           if c2 = ']' then some (.arr .nil, r2)
           else
             (match pElems f (c2 :: r2) with
              | some (xs, rest) => some (.arr xs, rest)
              | none => none))
      else if c = obr then
        (match skipWs r with
         | [] => none
         | c2 :: r2 =>
           if c2 = cbr then some (.obj .nil, r2)
           else
             (match pFields f (c2 :: r2) with
              | some (fs, rest) => some (.obj fs, rest)
              | none => none))
      else if c = '-' then
        (match pNat r with
         | some (n, rest) => some (.int (-(n : Int)), rest)
         | none => none)
      else if c.isDigit then
        (match pNat (c :: r) with
         | some (n, rest) => some (.int (n : Int), rest)
         | none => none)
      else none
/-- Parse a nonempty comma-separated element list followed by `]`. -/
def pElems : Nat → Chars → Option (JArr × Chars)
  | 0, _ => none
  | f+1, s =>
    match pVal f s with
    | some (v, r) =>
      (match skipWs r with
       | [] => none
       | c2 :: r2 =>
         if c2 = ',' then
           (match pElems f (skipWs r2) with
            | some (xs, rest) => some (.cons v xs, rest)
            | none => none)
         else if c2 = ']' then some (.cons v .nil, r2)
         else none)
    | none => none
/-- Parse a nonempty comma-separated field list followed by the closing
brace. -/
def pFields : Nat → Chars → Option (JObj × Chars)
  | 0, _ => none
  | f+1, s =>
    match s with
    | [] => none
    | c :: r1 =>
      if c = '"' then
        (match pStrBody r1 with
         | some (k, r2) =>
           (match skipWs r2 with
            | [] => none
            | c2 :: r3 =>
              if c2 = ':' then
                (match pVal f (skipWs r3) with
                 | some (v, r4) =>
                   (match skipWs r4 with
                    | [] => none
                    | c3 :: r5 =>
                      if c3 = ',' then
                        (match pFields f (skipWs r5) with
                         | some (fs, rest) => some (.cons k v fs, rest)
                         | none => none)
                      else if c3 = cbr then some (.cons k v .nil, r5)
                      else none)
                 | none => none)
              else none)
         | none => none)
      else none
end

mutual
/-- Parsing-fuel measure of a value (one unit per node visit). -/
def mVal : JVal → Nat
  | .arr xs => 1 + mArr xs
  | .obj fs => 1 + mObj fs
  | _ => 1
/-- Measure of an element list. -/
def mArr : JArr → Nat
  | .nil => 0
  | .cons x tl => 1 + mVal x + mArr tl
/-- Measure of a field list. -/
def mObj : JObj → Nat
  | .nil => 0
  | .cons _ v tl => 1 + mVal v + mObj tl
end

/-- Model of `json.loads`: parse a complete JSON document (whitespace allowed around
it). -/
def parseJson (s : Chars) : Option JVal :=
  let t := skipWs s
  match pVal (t.length + 1) t with
  | some (v, rest) => if skipWs rest = [] then some v else none
  | none => none

/-! ### Prompt rendering (`render_prompt`) -/

/-- The placeholder token for key `k`: two opening braces, the key, two
closing braces. -/
def ph (k : Chars) : Chars := obr :: obr :: (k ++ [cbr, cbr])

/-- Python `s.replace(old, new)` for nonempty `old`: replace non-overlapping
occurrences left to right, scanning resumes after each inserted `new` (fuel
`s.length` suffices; with fuel `0` the remaining input is returned
unchanged, which is only reached on empty input). -/
def pyReplaceF : Nat → Chars → Chars → Chars → Chars
  | 0, s, _, _ => s
  | f+1, s, old, new =>
    if !old.isEmpty && old.isPrefixOf s then
      new ++ pyReplaceF f (s.drop old.length) old new
    else match s with
      | [] => []
      | c :: r => c :: pyReplaceF f r old new

/-- Python `s.replace(old, new)` (as called by `render_prompt`, where `old`
is a nonempty placeholder token). -/
def pyReplace (s old new : Chars) : Chars := pyReplaceF s.length s old new

/-- Attempt to match the regex `placeholder` pattern (two opening braces, one
or more non-brace characters, two closing braces) at the head of `s`,
returning the input after the match.  The one-or-more repetition is greedy;
since it can never include a closing brace, greedy matching is exact. -/
def matchPH : Chars → Option Chars
  | c1 :: c2 :: r =>
    if c1 = obr && c2 = obr then
      let body := r.takeWhile nonBrace
      if body.isEmpty then none
      else match r.drop body.length with
        | d1 :: d2 :: rest => if d1 = cbr && d2 = cbr then some rest else none
        | _ => none
    else none
  | _ => none

/-- Model of `re.sub(placeholder-pattern, "", s)`: scan left to right, deleting each
leftmost match and resuming after it (fuel `s.length` suffices: a match
consumes at least five characters, a non-match advances one). -/
def reSubF : Nat → Chars → Chars
  | 0, s => s
  | _+1, [] => []
  | f+1, c :: r =>
    match matchPH (c :: r) with
    | some rest => reSubF f rest
    | none => c :: reSubF f r

/-- Removal of all unresolved placeholder-pattern matches. -/
def reSub (s : Chars) : Chars := reSubF s.length s

/-- Whether some suffix of `s` begins with a placeholder-pattern match, i.e.
whether the output still contains a placeholder token. -/
def hasPH : Chars → Bool
  | [] => false
  | c :: r => (matchPH (c :: r)).isSome || hasPH r

/-- Model of `render_prompt` from `elevenlabs_agent_runner.py` (lines 131-140) and the
identical replacement core of `minimal_sdk_runner.py` (lines 68-76): replace
each variable's placeholder token in turn, then delete every remaining
placeholder-pattern match.  Variables are the dict items in iteration
(insertion) order. -/
def render_prompt (template : Chars) (vs : List (Chars × Chars)) : Chars :=
  reSub (vs.foldl (fun out kv => pyReplace out (ph kv.1) kv.2) template)

/-- A decomposition of a template (or of an intermediate replacement state)
into literal text and placeholder tokens; used to state what rendering does
on well-formed templates. -/
inductive Tok where
  | lit : Chars → Tok
  | phk : Chars → Tok
deriving DecidableEq

/-- The string a token list denotes. -/
def Tok.flat : List Tok → Chars
  | [] => []
  | .lit s :: r => s ++ Tok.flat r
  | .phk k :: r => ph k ++ Tok.flat r

/-- Well-formedness of a token: literal text is brace-free; a placeholder key
is nonempty and brace-free. -/
def wfTok : Tok → Bool
  | .lit s => s.all nonBrace
  | .phk k => !k.isEmpty && k.all nonBrace

/-- Well-formedness of a variable binding: nonempty brace-free key,
brace-free value. -/
def wfVar (kv : Chars × Chars) : Bool :=
  !kv.1.isEmpty && kv.1.all nonBrace && kv.2.all nonBrace

/-- The effect of one replacement pass (for variable `k ↦ v`) on a token. -/
def replTok (k v : Chars) : Tok → Tok
  | .lit s => .lit s
  | .phk j => if j = k then .lit v else .phk j

/-- The effect of all replacement passes on a token. -/
def passTok (vs : List (Chars × Chars)) (tk : Tok) : Tok :=
  vs.foldl (fun t kv => replTok kv.1 kv.2 t) tk

/-- The final cleanup's effect on a token: an unresolved placeholder is
removed. -/
def dropPh : Tok → Tok
  | .lit s => .lit s
  | .phk _ => .lit []

/-- What the specification says rendering does to one token: literal text is
kept, a placeholder becomes the first bound value of its key, or the empty
string when the key is absent. -/
def substTok (vs : List (Chars × Chars)) : Tok → Tok
  | .lit s => .lit s
  | .phk j => .lit ((List.lookup j vs).getD [])

/-! ### Outbound messages and the two background watchers -/

/-- A tool-call result payload. -/
inductive ToolRes where
  | memMap : List (Chars × Chars) → ToolRes
  | history : List (Chars × Chars) → ToolRes
  | err : Chars → ToolRes
deriving DecidableEq

/-- A message sent on the websocket by the runner (other than the initiation
payload). -/
inductive OutMsg where
  | pong : JVal → OutMsg
  | ctxUpdate : Chars → Option Chars → OutMsg
  | toolResult : Option JVal → ToolRes → Bool → OutMsg
deriving DecidableEq

/-- The `conversation_id` recorded in a `contextual_update` payload:
present exactly when the active conversation id is truthy. -/
def updCid (active : Option Chars) : Option Chars :=
  if truthyO active then active else none

/-- Python equality `target == active_conversation_id` between a JSON value
and an optional string (`None` equals only `None`; a string equals only an
equal string). -/
def pyEqAct (t : JVal) (a : Option Chars) : Bool :=
  match a with
  | none => t = JVal.null
  | some s => t = JVal.str s

/-- The per-line decision of `watch_updates_queue` (lines 316-331) for a
parsed dict line: resolve `text` (`rec.get("text") or rec.get("message")`),
skip falsy text, skip when a truthy target differs from a truthy active id,
skip when the active id is falsy, otherwise send `str(text)`. -/
def queueLineSend (fs : JObj) (active : Option Chars) : Option Chars :=
  let target := jGetD fs "conversation_id".data
  let t1 := jGetD fs "text".data
  let text := if jTruthy t1 then t1 else jGetD fs "message".data
  if !jTruthy text then none
  else if jTruthy target && truthyO active && !pyEqAct target active then none
  else if !truthyO active then none
  else some (pyStrJ text)

/-- One pass of `watch_updates_queue` over the freshly read lines.  `failAt`
is the index (among this tick's send attempts) of the `ws.send` that raises,
if any; an exception — from a failed send or from `rec.get` on a non-dict
line — aborts the rest of the batch.  Returns the messages that were sent
and whether the batch completed without an exception. -/
def qGo (active : Option Chars) (failAt : Option Nat) :
    List Chars → Nat → List OutMsg × Bool
  | [], _ => ([], true)
  | l :: rest, sendIdx =>
    let line := pyStrip l
    if line.isEmpty then qGo active failAt rest sendIdx
    else match parseJson line with
      | none => qGo active failAt rest sendIdx
      | some (.obj fs) =>
        (match queueLineSend fs active with
         | none => qGo active failAt rest sendIdx
         | some txt =>
           if failAt = some sendIdx then ([], false)
           else
             let (ms, ok) := qGo active failAt rest (sendIdx + 1)
             (OutMsg.ctxUpdate txt (updCid active) :: ms, ok))
      | some _ => ([], false)

/-- One tick of `watch_updates_queue` (lines 298-334): skip when the file is
missing or not longer than the offset; otherwise read the appended bytes,
process each line, and commit `offset = size` only when the whole batch ran
without an exception (the `except` clause leaves `offset` unchanged).
Returns the sent messages and the new offset. -/
def queueTick (exists_ : Bool) (content : Chars) (offset : Nat)
    (failAt : Option Nat) (active : Option Chars) : List OutMsg × Nat :=
  if !exists_ then ([], offset)
  else if content.length ≤ offset then ([], offset)
  else
    let lines := (content.drop offset).splitOn '\n'
    match qGo active failAt lines 0 with
    | (ms, true) => (ms, content.length)
    | (ms, false) => (ms, offset)

/-- Whether a queue line cannot abort the batch: it is skippable or parses to
a dict (a line parsing to a non-dict value makes `rec.get` raise). -/
def lineOk (l : Chars) : Bool :=
  match parseJson (pyStrip l) with
  | some (.obj _) => true
  | some _ => false
  | none => true

/-- Model of `d.get(k, default)` on a stringified snapshot. -/
def lookupD (m : List (Chars × Chars)) (k : Chars) (d : Chars) : Chars :=
  match m.lookup k with
  | some v => v
  | none => d

/-- The changed-key computation of `watch_memory_and_send_contextual_updates`
(line 264): the keys of the new stringified snapshot whose value differs from
the previous stringified snapshot, an absent key reading as `""`. -/
def changedKeys (curr last : List (Chars × Chars)) : List Chars :=
  (curr.map Prod.fst).filter (fun k => !(lookupD curr k [] = lookupD last k []))

/-- The update summary (lines 271-273): `"Context update: "` then the first 8
changed keys comma-separated, then `" (+<n-8> more)"` when more than 8 keys
changed. -/
def mkSummary (changed : List Chars) : Chars :=
  "Context update: ".data ++ joinSep ", ".data (changed.take 8) ++
    (if changed.length > 8 then " (+".data ++ natRepr (changed.length - 8) ++ " more)".data
     else [])

/-- The in-memory state of the memory-file watcher. -/
structure MemSt where
  lastMtime : Nat
  lastVars : List (Chars × Chars)
deriving DecidableEq

/-- One tick of `watch_memory_and_send_contextual_updates` (lines 252-285):
skip when the file is missing or its mtime has not advanced; otherwise record
the new mtime, recompute the stringified snapshot and the changed keys;
drop the tick (but adopt the new snapshot) when nothing changed or no active
conversation exists; otherwise send one `contextual_update` and adopt the new
snapshot — unless the send raises, in which case the previous snapshot is
kept (only the mtime was already updated). -/
def memTick (st : MemSt) (exists_ : Bool) (mtime : Nat)
    (mem : List (Chars × JVal)) (active : Option Chars) (sendFail : Bool) :
    MemSt × List OutMsg :=
  if !exists_ then (st, [])
  else if mtime ≤ st.lastMtime then (st, [])
  else
    let curr := to_string_map mem
    let changed := changedKeys curr st.lastVars
    if changed.isEmpty then ({ lastMtime := mtime, lastVars := curr }, [])
    else if !truthyO active then ({ lastMtime := mtime, lastVars := curr }, [])
    else if sendFail then ({ lastMtime := mtime, lastVars := st.lastVars }, [])
    else ({ lastMtime := mtime, lastVars := curr },
          [OutMsg.ctxUpdate (mkSummary changed) (updCid active)])

/-! ### The websocket receive loop -/

/-- An inbound event, by `type`, with the fields the loop reads.  `Option`
models a field that is absent or JSON `null` (both read as Python `None`);
per the event schema, `conversation_id`, transcript texts and `tool_name`
are strings when present. -/
inductive Event where
  | ping : Option JVal → Event
  | initMeta : Option Chars → Event
  | userTranscript : Option Chars → Event
  | agentResponse : Option Chars → Event
  | audio : Event
  | interruption : Event
  | clientToolCall : Option Chars → Option JVal → Event
  | other : Event

/-- The loop-local state: the active conversation id and the rolling
transcript of (role, text) turns. -/
structure SessSt where
  active : Option Chars
  transcript : List (Chars × Chars)
deriving DecidableEq

/-- The collaborators consulted while answering a tool call:
`load_memory_buffer` (which may raise, e.g. on unreadable JSON) and
`int(cfg.get("recent_max", 10) or 10)` (which may raise on a bad config
value); an `error` carries the exception text `str(e)`. -/
structure Env where
  mem : Except Chars (List (Chars × JVal))
  recentMax : Except Chars Int

/-- Python `l[-n:]` for an `int` `n`: the last `n` elements when `n > 0`,
the whole list when `n = 0`, and `l[(-n):]` when `n < 0`. -/
def pyTail (l : List (Chars × Chars)) (n : Int) : List (Chars × Chars) :=
  if 0 < n then l.drop (l.length - n.toNat) else l.drop (-n).toNat

/-- One iteration of the receive loop of `run_websocket` (lines 346-417),
dispatching on the decoded event: answer `ping` with `pong` echoing the event
id when one is present; adopt a truthy `conversation_id` from the initiation
metadata; append truthy transcript texts with roles `"user"` and
`"assistant"`; ignore `audio`, `interruption` and unknown types; answer a
`client_tool_call` with exactly one `client_tool_result`, flagged as an
error when the stripped tool name is unrecognized or the handler raises. -/
def step (env : Env) (s : SessSt) (e : Event) : SessSt × List OutMsg :=
  match e with
  | .ping eid =>
    (s, match eid with
        | some v => [.pong v]
        | none => [])
  | .initMeta cid => (if truthyO cid then { s with active := cid } else s, [])
  | .userTranscript t =>
    (if truthyO t then { s with transcript := s.transcript ++ [("user".data, t.getD [])] }
     else s, [])
  | .agentResponse t =>
    (if truthyO t then { s with transcript := s.transcript ++ [("assistant".data, t.getD [])] }
     else s, [])
  | .audio => (s, [])
  | .interruption => (s, [])
  | .clientToolCall toolName callId =>
    let tool := pyStrip (toolName.getD [])
    if tool = "getMemoryBuffer".data then
      match env.mem with
      | .ok m => (s, [.toolResult callId (.memMap (to_string_map m)) false])
      | .error msg => (s, [.toolResult callId (.err msg) true])
    else if tool = "getConversationHistory".data then
      match env.recentMax with
      | .ok n => (s, [.toolResult callId (.history (pyTail s.transcript n)) false])
      | .error msg => (s, [.toolResult callId (.err msg) true])
    else (s, [.toolResult callId (.err ("Unsupported tool: ".data ++ tool)) true])
  | .other => (s, [])

/-- The receive loop over a finite inbound event sequence: fold `step`,
concatenating the outbound messages in order. -/
def runLoop (env : Env) : SessSt → List Event → SessSt × List OutMsg
  | s, [] => (s, [])
  | s, e :: es =>
    let p := step env s e
    let q := runLoop env p.1 es
    (q.1, p.2 ++ q.2)

/-! ## Helper lemmas -/

theorem lookup_none_of_not_key {β : Type} (k : Chars) (l : List (Chars × β))
    (h : k ∉ l.map Prod.fst) : List.lookup k l = none := by
  induction l with
  | nil => rfl
  | cons p t ih =>
    simp only [List.map_cons, List.mem_cons, not_or] at h
    have hk : (k == p.1) = false := beq_eq_false_iff_ne.mpr h.1
    simp [List.lookup, hk, ih h.2]

theorem lookup_to_string_map (mem : List (Chars × JVal)) (k : Chars) :
    List.lookup k (to_string_map mem) = (List.lookup k mem).map strVal := by
  induction mem with
  | nil => rfl
  | cons p t ih =>
    by_cases h : k == p.1
    · simp [to_string_map, List.lookup, h, ih]
    · simp only [to_string_map, List.map_cons, List.lookup, h]
      exact ih

/-- C10: the changed-key computation iterates only over the keys of the new
stringified snapshot, comparing against the previous one with absent keys
read as the empty string; hence a removed key is never reported, and an added
key whose stringified value is empty (e.g. a null value) is never reported,
so neither triggers a contextual update. -/
theorem changedKeys_removed_and_empty_added :
    ∀ (curr last : List (Chars × Chars)) (mem : List (Chars × JVal)) (k : Chars),
      (k ∉ curr.map Prod.fst → k ∉ changedKeys curr last) ∧
      (k ∉ last.map Prod.fst → lookupD curr k [] = [] → k ∉ changedKeys curr last) ∧
      (k ∉ last.map Prod.fst → List.lookup k mem = some JVal.null →
        k ∉ changedKeys (to_string_map mem) last) := by
  intro curr last mem k
  have habs : ∀ (m : List (Chars × Chars)), k ∉ m.map Prod.fst → lookupD m k [] = [] := by
    intro m hm
    simp [lookupD, lookup_none_of_not_key k m hm]
  refine ⟨?_, ?_, ?_⟩
  · intro h hc
    exact h (List.mem_of_mem_filter hc)
  · intro hlast hcur hc
    have := List.of_mem_filter hc
    simp only [Bool.not_eq_true'] at this
    rw [hcur, habs last hlast] at this
    simp at this
  · intro hlast hmem hc
    have := List.of_mem_filter hc
    simp only [Bool.not_eq_true'] at this
    have hcur : lookupD (to_string_map mem) k [] = [] := by
      simp [lookupD, lookup_to_string_map, hmem, strVal]
    rw [hcur, habs last hlast] at this
    simp at this

theorem changedKeys_removed_and_empty_added_witness :
    "b".data ∉ changedKeys [("a".data, "1".data)] [("b".data, "2".data)] ∧
    "z".data ∉ changedKeys (to_string_map [("z".data, JVal.null)]) [] :=
  ⟨(changedKeys_removed_and_empty_added [("a".data, "1".data)] [("b".data, "2".data)] [] "b".data).1
     (by decide),
   (changedKeys_removed_and_empty_added (to_string_map [("z".data, JVal.null)]) [] [("z".data, JVal.null)] "z".data).2.2
     (by decide) (by decide)⟩

/-- C8: on a poll tick with a non-empty changed-key set, exactly one update
record is built (a one-element send list), whose summary lists the first 8
changed keys; with 12 changed keys the summary is the first 8 names plus a
literal " (+4 more)" suffix. -/
theorem memTick_single_update_and_cap :
    ∀ (st : MemSt) (mtime : Nat) (mem : List (Chars × JVal)) (active : Option Chars),
      st.lastMtime < mtime → truthyO active = true →
      (changedKeys (to_string_map mem) st.lastVars ≠ [] →
        (memTick st true mtime mem active false).2 =
          [OutMsg.ctxUpdate (mkSummary (changedKeys (to_string_map mem) st.lastVars)) active]) ∧
      ((changedKeys (to_string_map mem) st.lastVars).length = 12 →
        mkSummary (changedKeys (to_string_map mem) st.lastVars) =
          "Context update: ".data ++
            joinSep ", ".data ((changedKeys (to_string_map mem) st.lastVars).take 8) ++
            " (+4 more)".data) := by
  intro st mtime mem active hm ha
  constructor
  · intro hne
    have h1 : ¬ (mtime ≤ st.lastMtime) := by omega
    have h2 : (changedKeys (to_string_map mem) st.lastVars).isEmpty = false := by
      simpa [List.isEmpty_iff] using hne
    simp [memTick, h1, h2, ha, updCid]
  · intro h12
    have h8 : (changedKeys (to_string_map mem) st.lastVars).length > 8 := by omega
    have h4 : natRepr ((changedKeys (to_string_map mem) st.lastVars).length - 8) = "4".data := by
      rw [h12]
      decide
    simp only [mkSummary, if_pos h8, h4]
    congr 1

theorem memTick_single_update_and_cap_witness :
    (memTick ⟨0, []⟩ true 1
        [("k01".data, .str "v".data), ("k02".data, .str "v".data), ("k03".data, .str "v".data),
         ("k04".data, .str "v".data), ("k05".data, .str "v".data), ("k06".data, .str "v".data),
         ("k07".data, .str "v".data), ("k08".data, .str "v".data), ("k09".data, .str "v".data),
         ("k10".data, .str "v".data), ("k11".data, .str "v".data), ("k12".data, .str "v".data)]
        (some "S1".data) false).2 =
      [OutMsg.ctxUpdate (mkSummary (changedKeys (to_string_map
        [("k01".data, .str "v".data), ("k02".data, .str "v".data), ("k03".data, .str "v".data),
         ("k04".data, .str "v".data), ("k05".data, .str "v".data), ("k06".data, .str "v".data),
         ("k07".data, .str "v".data), ("k08".data, .str "v".data), ("k09".data, .str "v".data),
         ("k10".data, .str "v".data), ("k11".data, .str "v".data), ("k12".data, .str "v".data)]) []))
        (some "S1".data)] :=
  (memTick_single_update_and_cap ⟨0, []⟩ 1 _ (some "S1".data) (by decide) (by decide)).1
    (by decide)

/-- C3: a ping carrying an event id produces exactly one outbound message in
its receive-loop iteration: the pong echoing that id (so it precedes any
other outbound message of the iteration, and the state is unchanged). -/
theorem ping_pong_exact :
    ∀ (env : Env) (s : SessSt) (v : JVal),
      step env s (.ping (some v)) = (s, [OutMsg.pong v]) := by
  intro env s v
  rfl

theorem step_transcript_grows :
    ∀ (env : Env) (s : SessSt) (e : Event) (r t : Chars),
      (r, t) ∈ (step env s e).1.transcript →
      (r, t) ∈ s.transcript ∨ r = "user".data ∨ r = "assistant".data := by
  intro env s e r t h
  cases e with
  | ping eid => cases eid <;> exact Or.inl h
  | initMeta cid =>
    by_cases hc : truthyO cid = true <;> simp [step, hc] at h <;> exact Or.inl h
  | userTranscript t0 =>
    by_cases hc : truthyO t0 = true <;> simp [step, hc] at h
    · rcases h with h | h
      · exact Or.inl h
      · exact Or.inr (Or.inl h.1)
    · exact Or.inl h
  | agentResponse t0 =>
    by_cases hc : truthyO t0 = true <;> simp [step, hc] at h
    · rcases h with h | h
      · exact Or.inl h
      · exact Or.inr (Or.inr h.1)
    · exact Or.inl h
  | audio => exact Or.inl h
  | interruption => exact Or.inl h
  | other => exact Or.inl h
  | clientToolCall a b =>
    simp only [step] at h
    split at h
    · split at h <;> exact Or.inl h
    · split at h
      · split at h <;> exact Or.inl h
      · exact Or.inl h

/-- C9 (amended): every transcript entry has role `"user"` or `"assistant"`:
a `user_transcript` event with non-empty text appends a `"user"` turn, an
`agent_response` event with non-empty text appends an `"assistant"` turn, and
no other role is ever appended by the receive loop. -/
theorem transcript_roles_user_assistant :
    ∀ (env : Env) (s0 : SessSt) (evs : List Event),
      (∀ r t, (r, t) ∈ s0.transcript → r = "user".data ∨ r = "assistant".data) →
      (∀ r t, (r, t) ∈ (runLoop env s0 evs).1.transcript →
        r = "user".data ∨ r = "assistant".data) ∧
      (∀ txt, txt ≠ [] →
        (step env s0 (.userTranscript (some txt))).1.transcript =
          s0.transcript ++ [("user".data, txt)] ∧
        (step env s0 (.agentResponse (some txt))).1.transcript =
          s0.transcript ++ [("assistant".data, txt)]) := by
  intro env s0 evs h0
  constructor
  · induction evs generalizing s0 with
    | nil => exact h0
    | cons e es ih =>
      intro r t h
      simp only [runLoop] at h
      exact ih (step env s0 e).1
        (fun r' t' h' => (step_transcript_grows env s0 e r' t' h').elim (h0 r' t') id) r t h
  · intro txt hne
    have ht : truthyO (some txt) = true := by
      simp [truthyO, List.isEmpty_iff, hne]
    exact ⟨by simp [step, ht], by simp [step, ht]⟩

theorem transcript_roles_user_assistant_witness :
    (step ⟨Except.ok [], Except.ok 10⟩ ⟨none, []⟩ (.agentResponse (some "hi".data))).1.transcript =
      ([] : List (Chars × Chars)) ++ [("assistant".data, "hi".data)] :=
  ((transcript_roles_user_assistant ⟨Except.ok [], Except.ok 10⟩ ⟨none, []⟩ []
      (by intro r t h; simp at h)).2 "hi".data (by decide)).2

theorem transcript_role_counterexample :
    (step ⟨Except.ok [], Except.ok 10⟩ ⟨none, []⟩
        (.agentResponse (some "hi".data))).1.transcript =
      [("assistant".data, "hi".data)] ∧
    ¬ ("assistant".data = "agent".data) := by
  constructor
  · decide
  · decide

/-- C2: every `client_tool_call` event is answered, within its receive-loop
iteration, by exactly one `client_tool_result` echoing the call id, with
`is_error = false` exactly when the (stripped) tool name is one of the two
recognized tools and its handler succeeds, the successful result being the
handler's value; in every other case (unrecognized name, or the handler
raising) the single result is error-flagged. -/
theorem tool_call_exactly_one_result :
    ∀ (env : Env) (s : SessSt) (toolName : Option Chars) (callId : Option JVal),
      ∃ res isErr,
        (step env s (.clientToolCall toolName callId)).2 =
          [OutMsg.toolResult callId res isErr] ∧
        (isErr = false ↔
          (pyStrip (toolName.getD []) = "getMemoryBuffer".data ∧ env.mem.isOk = true) ∨
          (pyStrip (toolName.getD []) = "getConversationHistory".data ∧
            env.recentMax.isOk = true)) ∧
        (∀ m, pyStrip (toolName.getD []) = "getMemoryBuffer".data → env.mem = .ok m →
          res = .memMap (to_string_map m)) ∧
        (∀ n, pyStrip (toolName.getD []) = "getConversationHistory".data →
          env.recentMax = .ok n → res = .history (pyTail s.transcript n)) := by
  intro env s toolName callId
  have hne : ¬ ("getMemoryBuffer".data = "getConversationHistory".data) := by decide
  by_cases h1 : pyStrip (toolName.getD []) = "getMemoryBuffer".data
  · cases hm : env.mem with
    | ok m =>
      refine ⟨.memMap (to_string_map m), false, by simp [step, h1, hm], ?_, ?_, ?_⟩
      · exact ⟨fun _ => Or.inl ⟨h1, rfl⟩, fun _ => rfl⟩
      · intro m' _ hm'
        cases hm'
        rfl
      · intro n hn _
        rw [h1] at hn
        exact absurd hn hne
    | error msg =>
      refine ⟨.err msg, true, by simp [step, h1, hm], ?_, ?_, ?_⟩
      · constructor
        · intro h
          cases h
        · rintro (⟨_, hok⟩ | ⟨hc, _⟩)
          · cases hok
          · rw [h1] at hc
            exact absurd hc hne
      · intro m' _ hm'
        cases hm'
      · intro n hn _
        rw [h1] at hn
        exact absurd hn hne
  · by_cases h2 : pyStrip (toolName.getD []) = "getConversationHistory".data
    · cases hr : env.recentMax with
      | ok n =>
        refine ⟨.history (pyTail s.transcript n), false, by simp [step, h1, h2, hr], ?_, ?_, ?_⟩
        · exact ⟨fun _ => Or.inr ⟨h2, rfl⟩, fun _ => rfl⟩
        · intro m' hm' _
          exact absurd hm' h1
        · intro n' _ hr'
          cases hr'
          rfl
      | error msg =>
        refine ⟨.err msg, true, by simp [step, h1, h2, hr], ?_, ?_, ?_⟩
        · constructor
          · intro h
            cases h
          · rintro (⟨hc, _⟩ | ⟨_, hok⟩)
            · exact absurd hc h1
            · cases hok
        · intro m' hm' _
          exact absurd hm' h1
        · intro n' _ hr'
          cases hr'
    · refine ⟨.err ("Unsupported tool: ".data ++ pyStrip (toolName.getD [])), true,
        by simp [step, h1, h2], ?_, ?_, ?_⟩
      · constructor
        · intro h
          cases h
        · rintro (⟨hc, _⟩ | ⟨hc, _⟩)
          · exact absurd hc h1
          · exact absurd hc h2
      · intro m' hm' _
        exact absurd hm' h1
      · intro n' hn' _
        exact absurd hn' h2

theorem queueLineSend_not_active :
    ∀ (fs : JObj) (active : Option Chars), truthyO active = false →
      queueLineSend fs active = none := by
  intro fs active h
  simp [queueLineSend, h]

theorem qGo_no_active :
    ∀ (active : Option Chars) (failAt : Option Nat), truthyO active = false →
      ∀ (lines : List Chars) (idx : Nat), (qGo active failAt lines idx).1 = [] := by
  intro active failAt h lines
  induction lines with
  | nil =>
    intro idx
    rfl
  | cons l rest ih =>
    intro idx
    simp only [qGo, queueLineSend_not_active _ _ h]
    split
    · exact ih idx
    · split
      · exact ih idx
      · exact ih idx
      · rfl

/-- C1: a pending update record is put on the wire as a `contextual_update`
exactly when an active conversation id exists and the record's target is
unset (not truthy) or equal to it.  Conjunct 1: the per-line decision of the
updates-queue watcher forwards a record with truthy text iff the active id is
truthy and the target is not truthy or Python-equal to it; conjunct 2: a
memory-diff record is sent exactly when an active conversation id exists;
conjunct 3: nothing the queue watcher ever sends leaves before an active
conversation id exists. -/
theorem contextual_update_target_filtering :
    ∀ (fs : JObj) (active : Option Chars) (st : MemSt) (mtime : Nat)
      (mem : List (Chars × JVal)) (content : Chars) (offset : Nat)
      (failAt : Option Nat) (ex : Bool) (m : OutMsg),
      (jTruthy (if jTruthy (jGetD fs "text".data) then jGetD fs "text".data
                else jGetD fs "message".data) = true →
        ((queueLineSend fs active).isSome = true ↔
          truthyO active = true ∧
            (jTruthy (jGetD fs "conversation_id".data) = false ∨
             pyEqAct (jGetD fs "conversation_id".data) active = true))) ∧
      (st.lastMtime < mtime → changedKeys (to_string_map mem) st.lastVars ≠ [] →
        ((memTick st true mtime mem active false).2 ≠ [] ↔ truthyO active = true)) ∧
      (m ∈ (queueTick ex content offset failAt active).1 → truthyO active = true) := by
  intro fs active st mtime mem content offset failAt ex m
  refine ⟨?_, ?_, ?_⟩
  · intro htext
    simp only [queueLineSend, htext, Bool.not_true, Bool.false_eq_true, if_false]
    cases htar : jTruthy (jGetD fs "conversation_id".data) <;>
      cases hact : truthyO active <;>
      cases heq : pyEqAct (jGetD fs "conversation_id".data) active <;>
      simp [htar, hact, heq]
  · intro hm hne
    have h1 : ¬ (mtime ≤ st.lastMtime) := by omega
    have h2 : (changedKeys (to_string_map mem) st.lastVars).isEmpty = false := by
      simpa [List.isEmpty_iff] using hne
    cases hact : truthyO active <;> simp [memTick, h1, h2, hact]
  · intro h
    by_cases hact : truthyO active = true
    · exact hact
    · exfalso
      rw [Bool.not_eq_true] at hact
      simp only [queueTick] at h
      split at h
      · simp at h
      · split at h
        · simp at h
        · rcases hpair : qGo active failAt ((content.drop offset).splitOn '\n') 0 with ⟨ms, ok⟩
          rw [hpair] at h
          have hms : ms = [] := by
            have h0 := qGo_no_active active failAt hact ((content.drop offset).splitOn '\n') 0
            rw [hpair] at h0
            exact h0
          cases ok <;> simp [hms] at h

theorem contextual_update_target_filtering_witness :
    jTruthy (if jTruthy (jGetD (JObj.cons "text".data (.str "A".data)
        (JObj.cons "conversation_id".data (.str "S1".data) .nil)) "text".data)
      then jGetD (JObj.cons "text".data (.str "A".data)
        (JObj.cons "conversation_id".data (.str "S1".data) .nil)) "text".data
      else jGetD (JObj.cons "text".data (.str "A".data)
        (JObj.cons "conversation_id".data (.str "S1".data) .nil)) "message".data) = true ∧
    ((queueLineSend (JObj.cons "text".data (.str "A".data)
        (JObj.cons "conversation_id".data (.str "S1".data) .nil)) (some "S1".data)).isSome = true ↔
      truthyO (some "S1".data) = true ∧
        (jTruthy (jGetD (JObj.cons "text".data (.str "A".data)
          (JObj.cons "conversation_id".data (.str "S1".data) .nil)) "conversation_id".data) = false ∨
         pyEqAct (jGetD (JObj.cons "text".data (.str "A".data)
          (JObj.cons "conversation_id".data (.str "S1".data) .nil)) "conversation_id".data)
          (some "S1".data) = true)) :=
  ⟨by decide,
   (contextual_update_target_filtering
      (JObj.cons "text".data (.str "A".data)
        (JObj.cons "conversation_id".data (.str "S1".data) .nil))
      (some "S1".data) ⟨0, []⟩ 0 [] [] 0 none true (OutMsg.pong .null)).1 (by decide)⟩

theorem qGo_complete :
    ∀ (active : Option Chars) (lines : List Chars) (idx : Nat),
      lines.all lineOk = true → (qGo active none lines idx).2 = true := by
  intro active lines
  induction lines with
  | nil =>
    intro idx _
    rfl
  | cons l rest ih =>
    intro idx hok
    rw [List.all_cons, Bool.and_eq_true] at hok
    simp only [qGo]
    split
    · exact ih idx hok.2
    · split
      · exact ih idx hok.2
      · rename_i fs hparse
        split
        · exact ih idx hok.2
        · split
          · rename_i hfail
            exact absurd hfail (by simp)
          · simp only []
            exact ih (idx + 1) hok.2
      · rename_i v hnotobj hparse
        exfalso
        have h1 : lineOk l = true := hok.1
        simp only [lineOk, hparse] at h1
        cases v <;> simp at h1

/-- C4 (amended): a record dropped for an inapplicable target or missing
session is never re-sent, and without a new change signal nothing is re-sent:
a queue tick that runs without an exception advances the offset past every
byte it read, so an immediately following tick on the same content sends
nothing; and a second memory tick on the same modification time never sends.
A send failure, however, is retried, not dropped (see the counterexample). -/
theorem dropped_records_not_resent_without_failure :
    ∀ (content : Chars) (offset : Nat) (active active2 : Option Chars) (ex : Bool)
      (st : MemSt) (mtime : Nat) (mem : List (Chars × JVal)) (sf sf2 : Bool),
      (((content.drop offset).splitOn '\n').all lineOk = true →
        (queueTick ex content ((queueTick ex content offset none active).2) none active2).1
          = []) ∧
      ((memTick (memTick st ex mtime mem active sf).1 ex mtime mem active2 sf2).2 = []) := by
  intro content offset active active2 ex st mtime mem sf sf2
  constructor
  · intro hok
    cases ex with
    | false => rfl
    | true =>
      by_cases hlen : content.length ≤ offset
      · have h1 : (queueTick true content offset none active).2 = offset := by
          simp [queueTick, hlen]
        rw [h1]
        simp [queueTick, hlen]
      · have hq := qGo_complete active ((content.drop offset).splitOn '\n') 0 hok
        have h1 : (queueTick true content offset none active).2 = content.length := by
          simp only [queueTick, Bool.not_true, Bool.false_eq_true, if_false, hlen, if_neg hlen]
          rcases hpair : qGo active none ((content.drop offset).splitOn '\n') 0 with ⟨ms, ok⟩
          rw [hpair] at hq
          simp only [] at hq
          rw [hq]
        rw [h1]
        simp [queueTick]
  · cases ex with
    | false => rfl
    | true =>
      by_cases hm : mtime ≤ st.lastMtime
      · have h1 : (memTick st true mtime mem active sf).1 = st := by
          simp [memTick, hm]
        rw [h1]
        simp [memTick, hm]
      · have h1 : (memTick st true mtime mem active sf).1.lastMtime = mtime := by
          simp only [memTick, Bool.not_true, Bool.false_eq_true, if_false, if_neg hm]
          split
          · rfl
          · split
            · rfl
            · split <;> rfl
        have h2 : mtime ≤ (memTick st true mtime mem active sf).1.lastMtime := by
          rw [h1]
        generalize (memTick st true mtime mem active sf).1 = st1 at h2 ⊢
        simp [memTick, h2]

theorem dropped_records_not_resent_without_failure_witness :
    (queueTick true ("\x7b\"text\": \"A\"\x7d\n".data)
        ((queueTick true ("\x7b\"text\": \"A\"\x7d\n".data) 0 none (some "S1".data)).2)
        none (some "S1".data)).1 = [] :=
  (dropped_records_not_resent_without_failure ("\x7b\"text\": \"A\"\x7d\n".data) 0
      (some "S1".data) (some "S1".data) true ⟨0, []⟩ 0 [] false false).1 (by decide)

theorem send_failure_retried_counterexample :
    queueTick true ("\x7b\"text\": \"A\"\x7d\n".data) 0 (some 0) (some "S1".data) = ([], 0) ∧
    (queueTick true ("\x7b\"text\": \"A\"\x7d\n".data) 0 none (some "S1".data)).1 =
      [OutMsg.ctxUpdate "A".data (some "S1".data)] := by
  constructor
  · decide
  · decide

/-! ## Rendering lemmas -/

theorem pyReplaceF_nil : ∀ (f : Nat) (old new : Chars), pyReplaceF f [] old new = [] := by
  intro f old new
  cases f with
  | zero => rfl
  | succ g =>
    cases old with
    | nil => simp [pyReplaceF]
    | cons c cs => simp [pyReplaceF, List.isPrefixOf]

theorem pyReplaceF_fuel :
    ∀ (f1 : Nat) (s old new : Chars), s.length ≤ f1 →
      ∀ (f2 : Nat), s.length ≤ f2 → pyReplaceF f1 s old new = pyReplaceF f2 s old new := by
  intro f1
  induction f1 with
  | zero =>
    intro s old new h1 f2 _
    have hs : s = [] := List.eq_nil_of_length_eq_zero (by omega)
    subst hs
    rw [pyReplaceF_nil, pyReplaceF_nil]
  | succ g1 ih =>
    intro s old new h1 f2 h2
    cases s with
    | nil => rw [pyReplaceF_nil, pyReplaceF_nil]
    | cons c r =>
      obtain ⟨g2, rfl⟩ : ∃ g2, f2 = g2 + 1 := ⟨f2 - 1, by simp at h2; omega⟩
      simp only [pyReplaceF]
      by_cases hc : (!old.isEmpty && old.isPrefixOf (c :: r)) = true
      · rw [if_pos hc, if_pos hc]
        congr 1
        have hold : 1 ≤ old.length := by
          rw [Bool.and_eq_true] at hc
          have h0 := hc.1
          cases old with
          | nil => simp at h0
          | cons _ _ => simp
        apply ih
        · simp only [List.length_drop, List.length_cons]
          simp only [List.length_cons] at h1
          omega
        · simp only [List.length_drop, List.length_cons]
          simp only [List.length_cons] at h2
          omega
      · rw [if_neg hc, if_neg hc]
        show c :: pyReplaceF g1 r old new = c :: pyReplaceF g2 r old new
        congr 1
        apply ih r old new (by simp at h1; omega) g2 (by simp at h2; omega)

theorem pyReplace_nil : ∀ (old new : Chars), pyReplace [] old new = [] := by
  intro old new
  rfl

theorem pyReplace_cons_no_match :
    ∀ (c : Char) (s old new : Chars), old.isPrefixOf (c :: s) = false →
      pyReplace (c :: s) old new = c :: pyReplace s old new := by
  intro c s old new h
  show pyReplaceF (c :: s).length (c :: s) old new = _
  rw [List.length_cons]
  simp only [pyReplaceF, h, Bool.and_false, Bool.false_eq_true, if_false]
  rfl

theorem isPrefixOf_append_self : ∀ (l r : Chars), l.isPrefixOf (l ++ r) = true := by
  intro l r
  induction l with
  | nil => simp [List.isPrefixOf]
  | cons c cs ih => simp [List.isPrefixOf, ih]

theorem pyReplace_head_match :
    ∀ (old s new : Chars), old ≠ [] →
      pyReplace (old ++ s) old new = new ++ pyReplace s old new := by
  intro old s new hne
  obtain ⟨g, hg⟩ : ∃ g, (old ++ s).length = g + 1 := by
    cases old with
    | nil => exact absurd rfl hne
    | cons c cs => exact ⟨(cs ++ s).length, by simp⟩
  show pyReplaceF (old ++ s).length (old ++ s) old new = _
  rw [hg]
  have hpre : (!old.isEmpty && old.isPrefixOf (old ++ s)) = true := by
    rw [isPrefixOf_append_self]
    cases old with
    | nil => exact absurd rfl hne
    | cons c cs => rfl
  simp only [pyReplaceF, hpre, if_pos]
  rw [List.drop_left]
  congr 1
  apply pyReplaceF_fuel
  · have : old.length + s.length = g + 1 := by simpa using hg
    have h1 : 1 ≤ old.length := by
      cases old with
      | nil => exact absurd rfl hne
      | cons _ _ => simp
    omega
  · exact Nat.le_refl _

theorem pyReplace_skip_nonbrace :
    ∀ (lit rest old new : Chars), old.head? = some obr → lit.all nonBrace = true →
      pyReplace (lit ++ rest) old new = lit ++ pyReplace rest old new := by
  intro lit
  induction lit with
  | nil =>
    intro rest old new _ _
    simp
  | cons c cs ih =>
    intro rest old new hold hall
    rw [List.all_cons, Bool.and_eq_true] at hall
    have hc : ¬ (c = obr) := by
      intro h
      rw [h] at hall
      simp [nonBrace] at hall
    obtain ⟨o, rfl⟩ : ∃ o, old = obr :: o := by
      cases old with
      | nil => simp at hold
      | cons a as =>
        simp only [List.head?] at hold
        exact ⟨as, by rw [Option.some_inj.mp hold]⟩
    have hpre : (obr :: o).isPrefixOf (c :: (cs ++ rest)) = false := by
      simp only [List.isPrefixOf, Bool.and_eq_false_iff]
      left
      exact beq_eq_false_iff_ne.mpr (fun h => hc h.symm)
    rw [List.cons_append, pyReplace_cons_no_match c (cs ++ rest) (obr :: o) new hpre,
        ih rest (obr :: o) new rfl hall.2]
    simp

theorem not_prefixOf_key_mismatch :
    ∀ (k j rest : Chars), k.all nonBrace = true → j.all nonBrace = true → ¬ (k = j) →
      (k ++ [cbr, cbr]).isPrefixOf (j ++ cbr :: cbr :: rest) = false := by
  intro k
  induction k with
  | nil =>
    intro j rest _ hj hne
    cases j with
    | nil => exact absurd rfl hne
    | cons b bs =>
      rw [List.all_cons, Bool.and_eq_true] at hj
      have hb : ¬ (cbr = b) := by
        intro h
        rw [← h] at hj
        simp [nonBrace] at hj
      simp [List.isPrefixOf, beq_eq_false_iff_ne.mpr hb]
  | cons a as ih =>
    intro j rest hk hne
    rw [List.all_cons, Bool.and_eq_true] at hk
    intro hkj
    cases j with
    | nil =>
      have ha : ¬ (a = cbr) := by
        intro h
        rw [h] at hk
        simp [nonBrace] at hk
      simp [List.isPrefixOf, beq_eq_false_iff_ne.mpr ha]
    | cons b bs =>
      rw [List.all_cons, Bool.and_eq_true] at hne
      by_cases hab : a = b
      · subst hab
        have hne2 : ¬ (as = bs) := fun h => hkj (by rw [h])
        simp [List.isPrefixOf, ih bs rest hk.2 hne.2 hne2]
      · simp [List.isPrefixOf, beq_eq_false_iff_ne.mpr hab]

theorem ph_ne_nil : ∀ (k : Chars), ph k ≠ [] := by
  intro k h
  simp [ph] at h

theorem pyReplace_ph_ne :
    ∀ (j k rest v : Chars), j ≠ [] → j.all nonBrace = true → k.all nonBrace = true →
      ¬ (j = k) →
      pyReplace (ph j ++ rest) (ph k) v = ph j ++ pyReplace rest (ph k) v := by
  intro j k rest v hne hj hk hjk
  have hshape : ph j ++ rest = obr :: obr :: (j ++ cbr :: cbr :: rest) := by
    simp [ph]
  have hsub : (k ++ [cbr, cbr]).isPrefixOf (j ++ cbr :: cbr :: rest) = false :=
    not_prefixOf_key_mismatch k j rest hk hj (fun h => hjk h.symm)
  have hpre1 : (ph k).isPrefixOf (obr :: obr :: (j ++ cbr :: cbr :: rest)) = false := by
    simp only [ph, List.isPrefixOf, beq_self_eq_true, Bool.true_and]
    exact hsub
  obtain ⟨a, as, rfl⟩ : ∃ a as, j = a :: as := by
    cases j with
    | nil => exact absurd rfl hne
    | cons a as => exact ⟨a, as, rfl⟩
  rw [List.all_cons, Bool.and_eq_true] at hj
  have ha : ¬ (obr = a) := by
    intro h
    rw [← h] at hj
    simp [nonBrace] at hj
  have hpre2 : (ph k).isPrefixOf (obr :: ((a :: as) ++ cbr :: cbr :: rest)) = false := by
    simp only [ph, List.isPrefixOf, beq_self_eq_true, Bool.true_and, List.cons_append]
    simp [beq_eq_false_iff_ne.mpr ha]
  have hcb : ∀ (tl : Chars), (ph k).isPrefixOf (cbr :: tl) = false := by
    intro tl
    have : ¬ (obr = cbr) := by decide
    simp [ph, List.isPrefixOf, beq_eq_false_iff_ne.mpr this]
  rw [hshape]
  rw [pyReplace_cons_no_match _ _ _ _ hpre1]
  rw [pyReplace_cons_no_match _ _ _ _ hpre2]
  rw [pyReplace_skip_nonbrace (a :: as) (cbr :: cbr :: rest) (ph k) v rfl
        (by rw [List.all_cons, Bool.and_eq_true]; exact hj)]
  rw [pyReplace_cons_no_match _ _ _ _ (hcb (cbr :: rest))]
  rw [pyReplace_cons_no_match _ _ _ _ (hcb rest)]
  simp [ph]

theorem pyReplace_flat :
    ∀ (toks : List Tok) (k v : Chars), toks.all wfTok = true →
      k.all nonBrace = true → v.all nonBrace = true →
      pyReplace (Tok.flat toks) (ph k) v = Tok.flat (toks.map (replTok k v)) := by
  intro toks
  induction toks with
  | nil =>
    intro k v _ _ _
    exact pyReplace_nil _ _
  | cons tok t ih =>
    intro k v hall hk hv
    rw [List.all_cons, Bool.and_eq_true] at hall
    cases tok with
    | lit s =>
      show pyReplace (s ++ Tok.flat t) (ph k) v = s ++ Tok.flat (t.map (replTok k v))
      rw [pyReplace_skip_nonbrace s (Tok.flat t) (ph k) v rfl hall.1, ih k v hall.2 hk hv]
    | phk j =>
      have hwf := hall.1
      rw [wfTok, Bool.and_eq_true] at hwf
      have hjne : j ≠ [] := by
        have h0 := hwf.1
        simpa [List.isEmpty_iff] using h0
      by_cases hjk : j = k
      · subst hjk
        show pyReplace (ph j ++ Tok.flat t) (ph j) v = _
        rw [pyReplace_head_match (ph j) (Tok.flat t) v (ph_ne_nil j), ih j v hall.2 hk hv]
        simp [replTok, Tok.flat]
      · show pyReplace (ph j ++ Tok.flat t) (ph k) v = _
        rw [pyReplace_ph_ne j k (Tok.flat t) v hjne hwf.2 hk hjk, ih k v hall.2 hk hv]
        simp [replTok, hjk, Tok.flat]

theorem wfTok_replTok :
    ∀ (tok : Tok) (k v : Chars), wfTok tok = true → v.all nonBrace = true →
      wfTok (replTok k v tok) = true := by
  intro tok k v h hv
  cases tok with
  | lit s => exact h
  | phk j =>
    by_cases hjk : j = k
    · simp [replTok, hjk, wfTok, hv]
    · simpa [replTok, hjk] using h

theorem all_wfTok_map_replTok :
    ∀ (toks : List Tok) (k v : Chars), toks.all wfTok = true → v.all nonBrace = true →
      (toks.map (replTok k v)).all wfTok = true := by
  intro toks k v h hv
  rw [List.all_eq_true] at h ⊢
  intro tok htok
  rw [List.mem_map] at htok
  obtain ⟨tok0, h0, rfl⟩ := htok
  exact wfTok_replTok tok0 k v (h tok0 h0) hv

theorem foldl_replace_flat :
    ∀ (vs : List (Chars × Chars)) (toks : List Tok), toks.all wfTok = true →
      vs.all wfVar = true →
      vs.foldl (fun out kv => pyReplace out (ph kv.1) kv.2) (Tok.flat toks)
        = Tok.flat (toks.map (passTok vs)) := by
  intro vs
  induction vs with
  | nil =>
    intro toks _ _
    have h1 : List.map (passTok []) toks = toks := by
      have h2 : passTok ([] : List (Chars × Chars)) = fun tok => tok := funext (fun _ => rfl)
      rw [h2, List.map_id']
    rw [h1]
    rfl
  | cons kv vs' ih =>
    intro toks ht hv
    rw [List.all_cons, Bool.and_eq_true] at hv
    have hkv := hv.1
    rw [wfVar, Bool.and_eq_true, Bool.and_eq_true] at hkv
    rw [List.foldl_cons,
        pyReplace_flat toks kv.1 kv.2 ht hkv.1.2 hkv.2,
        ih (toks.map (replTok kv.1 kv.2)) (all_wfTok_map_replTok toks kv.1 kv.2 ht hkv.2) hv.2,
        List.map_map]
    rfl

theorem passTok_lit : ∀ (vs : List (Chars × Chars)) (s : Chars),
    passTok vs (.lit s) = .lit s := by
  intro vs
  induction vs with
  | nil => intro s; rfl
  | cons kv vs' ih => intro s; exact ih s

theorem passTok_phk : ∀ (vs : List (Chars × Chars)) (j : Chars),
    passTok vs (.phk j) =
      (match List.lookup j vs with
       | some v => Tok.lit v
       | none => Tok.phk j) := by
  intro vs
  induction vs with
  | nil => intro j; rfl
  | cons kv vs' ih =>
    intro j
    by_cases hjk : j = kv.1
    · have hb : (j == kv.1) = true := beq_iff_eq.mpr hjk
      show passTok vs' (replTok kv.1 kv.2 (.phk j)) = _
      simp only [replTok, if_pos hjk, passTok_lit, List.lookup, hb]
    · have hb : (j == kv.1) = false := beq_eq_false_iff_ne.mpr hjk
      show passTok vs' (replTok kv.1 kv.2 (.phk j)) = _
      simp only [replTok, if_neg hjk, ih j, List.lookup, hb]

theorem reSubF_nil : ∀ (f : Nat), reSubF f [] = [] := by
  intro f
  cases f <;> rfl

theorem takeWhile_length_le_self :
    ∀ (p : Char → Bool) (l : Chars), (l.takeWhile p).length ≤ l.length := by
  intro p l
  induction l with
  | nil => simp
  | cons c cs ih =>
    rw [List.takeWhile_cons]
    split
    · simpa using ih
    · simp

theorem matchPH_some_length :
    ∀ (s rest : Chars), matchPH s = some rest → rest.length + 5 ≤ s.length := by
  intro s rest h
  match s with
  | [] => cases h
  | [c] => cases h
  | c1 :: c2 :: r =>
    simp only [matchPH] at h
    split at h
    · split at h
      · cases h
      · split at h
        · rename_i d1 d2 rest2 hdrop
          split at h
          · cases h
            have hlen : (r.drop ((r.takeWhile nonBrace).length)).length =
                r.length - (r.takeWhile nonBrace).length := List.length_drop _ _
            rw [hdrop] at hlen
            have hle : (r.takeWhile nonBrace).length ≤ r.length :=
              takeWhile_length_le_self _ _
            have hbody : ¬ ((r.takeWhile nonBrace).isEmpty = true) := by assumption
            have hbody1 : 1 ≤ (r.takeWhile nonBrace).length := by
              cases htw : r.takeWhile nonBrace with
              | nil => rw [htw] at hbody; simp at hbody
              | cons _ _ => simp
            simp only [List.length_cons] at hlen ⊢
            omega
          · cases h
        · cases h
    · cases h

theorem reSubF_fuel :
    ∀ (f1 : Nat) (s : Chars), s.length ≤ f1 → ∀ (f2 : Nat), s.length ≤ f2 →
      reSubF f1 s = reSubF f2 s := by
  intro f1
  induction f1 with
  | zero =>
    intro s h1 f2 _
    have hs : s = [] := List.eq_nil_of_length_eq_zero (by omega)
    subst hs
    rw [reSubF_nil, reSubF_nil]
  | succ g1 ih =>
    intro s h1 f2 h2
    cases s with
    | nil => rw [reSubF_nil, reSubF_nil]
    | cons c r =>
      obtain ⟨g2, rfl⟩ : ∃ g2, f2 = g2 + 1 := ⟨f2 - 1, by simp at h2; omega⟩
      simp only [reSubF]
      cases hm : matchPH (c :: r) with
      | some rest =>
        have hlen := matchPH_some_length (c :: r) rest hm
        simp only [List.length_cons] at hlen h1 h2
        exact ih rest (by omega) g2 (by omega)
      | none =>
        simp only [List.length_cons] at h1 h2
        rw [ih r (by omega) g2 (by omega)]

theorem reSub_nil : reSub [] = [] := rfl

theorem reSub_cons_no_match :
    ∀ (c : Char) (r : Chars), matchPH (c :: r) = none →
      reSub (c :: r) = c :: reSub r := by
  intro c r h
  show reSubF (c :: r).length (c :: r) = _
  rw [List.length_cons]
  simp only [reSubF, h]
  rfl

theorem reSub_head_match :
    ∀ (s rest : Chars), matchPH s = some rest → reSub s = reSub rest := by
  intro s rest h
  match s with
  | [] => cases h
  | [c] => cases h
  | c1 :: c2 :: r =>
    have hlen := matchPH_some_length _ _ h
    show reSubF (c1 :: c2 :: r).length (c1 :: c2 :: r) = _
    simp only [List.length_cons]
    simp only [reSubF, h]
    apply reSubF_fuel
    · simp only [List.length_cons] at hlen
      omega
    · exact Nat.le_refl _

theorem matchPH_nonbrace_head :
    ∀ (c : Char) (r : Chars), nonBrace c = true → matchPH (c :: r) = none := by
  intro c r hc
  have hco : ¬ (c = obr) := by
    intro h
    rw [h] at hc
    simp [nonBrace] at hc
  cases r with
  | nil => rfl
  | cons c2 r2 =>
    simp [matchPH, hco]

theorem takeWhile_append_all :
    ∀ (p : Char → Bool) (xs ys : Chars), xs.all p = true →
      (xs ++ ys).takeWhile p = xs ++ ys.takeWhile p := by
  intro p xs ys h
  induction xs with
  | nil => rfl
  | cons c cs ih =>
    rw [List.all_cons, Bool.and_eq_true] at h
    simp [List.takeWhile_cons, h.1, ih h.2]

theorem matchPH_ph :
    ∀ (k rest : Chars), k ≠ [] → k.all nonBrace = true →
      matchPH (ph k ++ rest) = some rest := by
  intro k rest hne hk
  have hshape : ph k ++ rest = obr :: obr :: (k ++ cbr :: cbr :: rest) := by
    simp [ph]
  rw [hshape]
  have htw : (k ++ cbr :: cbr :: rest).takeWhile nonBrace = k := by
    rw [takeWhile_append_all nonBrace k (cbr :: cbr :: rest) hk]
    have : nonBrace cbr = false := by decide
    simp [List.takeWhile_cons, this]
  have hdrop : (k ++ cbr :: cbr :: rest).drop k.length = cbr :: cbr :: rest :=
    List.drop_left k _
  have hkne : k.isEmpty = false := by
    cases k with
    | nil => exact absurd rfl hne
    | cons _ _ => rfl
  simp [matchPH, htw, hkne, hdrop]

theorem reSub_skip_nonbrace :
    ∀ (s rest : Chars), s.all nonBrace = true → reSub (s ++ rest) = s ++ reSub rest := by
  intro s
  induction s with
  | nil =>
    intro rest _
    simp
  | cons c cs ih =>
    intro rest h
    rw [List.all_cons, Bool.and_eq_true] at h
    rw [List.cons_append, reSub_cons_no_match c (cs ++ rest)
          (matchPH_nonbrace_head c (cs ++ rest) h.1), ih rest h.2]
    rfl

theorem reSub_flat :
    ∀ (toks : List Tok), toks.all wfTok = true →
      reSub (Tok.flat toks) = Tok.flat (toks.map dropPh) := by
  intro toks
  induction toks with
  | nil =>
    intro _
    rfl
  | cons tok t ih =>
    intro hall
    rw [List.all_cons, Bool.and_eq_true] at hall
    cases tok with
    | lit s =>
      show reSub (s ++ Tok.flat t) = s ++ Tok.flat (t.map dropPh)
      rw [reSub_skip_nonbrace s (Tok.flat t) hall.1, ih hall.2]
    | phk j =>
      have hwf := hall.1
      rw [wfTok, Bool.and_eq_true] at hwf
      have hjne : j ≠ [] := by
        have h0 := hwf.1
        simpa [List.isEmpty_iff] using h0
      show reSub (ph j ++ Tok.flat t) = Tok.flat (Tok.lit [] :: t.map dropPh)
      rw [reSub_head_match (ph j ++ Tok.flat t) (Tok.flat t)
            (matchPH_ph j (Tok.flat t) hjne hwf.2), ih hall.2]
      rfl

theorem lookup_wfVar_nonbrace :
    ∀ (vs : List (Chars × Chars)) (j v : Chars), vs.all wfVar = true →
      List.lookup j vs = some v → v.all nonBrace = true := by
  intro vs
  induction vs with
  | nil =>
    intro j v _ h
    cases h
  | cons kv vs' ih =>
    intro j v hall h
    rw [List.all_cons, Bool.and_eq_true] at hall
    by_cases hjk : (j == kv.1) = true
    · simp only [List.lookup, hjk] at h
      cases h
      have h1 := hall.1
      rw [wfVar, Bool.and_eq_true, Bool.and_eq_true] at h1
      exact h1.2
    · rw [Bool.not_eq_true] at hjk
      simp only [List.lookup, hjk] at h
      exact ih j v hall.2 h

theorem all_wfTok_map_passTok :
    ∀ (toks : List Tok) (vs : List (Chars × Chars)), toks.all wfTok = true →
      vs.all wfVar = true → (toks.map (passTok vs)).all wfTok = true := by
  intro toks vs ht hv
  rw [List.all_eq_true] at ht ⊢
  intro tok htok
  rw [List.mem_map] at htok
  obtain ⟨tok0, h0, rfl⟩ := htok
  cases tok0 with
  | lit s => rw [passTok_lit]; exact ht _ h0
  | phk j =>
    rw [passTok_phk]
    cases hl : List.lookup j vs with
    | some v =>
      show wfTok (Tok.lit v) = true
      exact lookup_wfVar_nonbrace vs j v hv hl
    | none => exact ht _ h0

/-- C6 (amended): for templates that are concatenations of brace-free
literal text and placeholders with nonempty brace-free keys, and contexts
with nonempty brace-free keys and brace-free values, rendering substitutes
each placeholder whose key is bound with that key's (first-bound) value,
replaces each placeholder whose key is absent with the empty string, and
leaves literal text unchanged.  (On other templates, nested or malformed
brace sequences can leave placeholder-shaped text in the output — see the
counterexample.) -/
theorem render_prompt_wf_spec :
    ∀ (toks : List Tok) (vs : List (Chars × Chars)),
      toks.all wfTok = true → vs.all wfVar = true →
      render_prompt (Tok.flat toks) vs = Tok.flat (toks.map (substTok vs)) := by
  intro toks vs ht hv
  show reSub (vs.foldl (fun out kv => pyReplace out (ph kv.1) kv.2) (Tok.flat toks)) = _
  rw [foldl_replace_flat vs toks ht hv,
      reSub_flat (toks.map (passTok vs)) (all_wfTok_map_passTok toks vs ht hv),
      List.map_map]
  congr 1
  apply List.map_congr_left
  intro tok _
  cases tok with
  | lit s => simp [Function.comp, passTok_lit, dropPh, substTok]
  | phk j =>
    simp only [Function.comp, passTok_phk, substTok]
    cases hl : List.lookup j vs with
    | some v => simp [dropPh]
    | none => simp [dropPh]

theorem render_prompt_wf_spec_witness :
    render_prompt
        (Tok.flat [Tok.lit "Hello ".data, Tok.phk "name".data, Tok.lit "!".data,
          Tok.phk "missing".data])
        [("name".data, "World".data)] =
      Tok.flat ([Tok.lit "Hello ".data, Tok.phk "name".data, Tok.lit "!".data,
          Tok.phk "missing".data].map (substTok [("name".data, "World".data)])) :=
  render_prompt_wf_spec
    [Tok.lit "Hello ".data, Tok.phk "name".data, Tok.lit "!".data, Tok.phk "missing".data]
    [("name".data, "World".data)] (by decide) (by decide)

theorem placeholder_left_in_output_counterexample :
    render_prompt (obr :: obr :: 'x' :: (ph "y".data ++ ['z', cbr, cbr])) [] =
      obr :: obr :: 'x' :: 'z' :: cbr :: cbr :: [] ∧
    hasPH (render_prompt (obr :: obr :: 'x' :: (ph "y".data ++ ['z', cbr, cbr])) []) = true := by
  constructor
  · decide
  · decide

/-- C5 (amended): a substituted value is re-scanned: the replacement passes
of later-listed variables substitute placeholders occurring inside an
earlier-substituted value, and the final cleanup deletes any remaining
placeholder-shaped text inside a substituted value, so such text does not
appear verbatim in the output; only brace-free substituted text survives
unchanged. -/
theorem substituted_value_rescanned :
    ∀ (k1 k2 v : Chars), v.all nonBrace = true → k2 ≠ [] → k2.all nonBrace = true →
      render_prompt (ph k1) [(k1, ph k2), (k2, v)] = v ∧
      render_prompt (ph k1) [(k1, ph k2)] = [] := by
  intro k1 k2 v hv hne hk2
  have h1 : pyReplace (ph k1) (ph k1) (ph k2) = ph k2 := by
    have h0 := pyReplace_head_match (ph k1) [] (ph k2) (ph_ne_nil k1)
    simpa [pyReplace_nil] using h0
  have h2 : pyReplace (ph k2) (ph k2) v = v := by
    have h0 := pyReplace_head_match (ph k2) [] v (ph_ne_nil k2)
    simpa [pyReplace_nil] using h0
  constructor
  · show reSub (List.foldl (fun out kv => pyReplace out (ph kv.1) kv.2) (ph k1)
      [(k1, ph k2), (k2, v)]) = v
    rw [List.foldl_cons, List.foldl_cons, List.foldl_nil, h1, h2]
    have h3 := reSub_skip_nonbrace v [] hv
    simpa [reSub_nil] using h3
  · show reSub (List.foldl (fun out kv => pyReplace out (ph kv.1) kv.2) (ph k1)
      [(k1, ph k2)]) = []
    rw [List.foldl_cons, List.foldl_nil, h1]
    have h3 := reSub_head_match (ph k2 ++ []) [] (matchPH_ph k2 [] hne hk2)
    simpa [reSub_nil] using h3

theorem substituted_value_rescanned_witness :
    render_prompt (ph "a".data) [("a".data, ph "b".data), ("b".data, "X".data)] = "X".data ∧
    render_prompt (ph "a".data) [("a".data, ph "b".data)] = [] :=
  substituted_value_rescanned "a".data "b".data "X".data (by decide) (by decide) (by decide)

theorem value_rescanned_counterexample :
    render_prompt (ph "a".data) [("a".data, ph "b".data), ("b".data, "X".data)] = "X".data ∧
    containsSub "X".data (ph "b".data) = false := by
  constructor
  · decide
  · decide

/-! ## JSON round-trip lemmas -/

theorem digChar_isDigit : ∀ (n : Nat), n < 10 → (digChar n).isDigit = true := by
  intro n h
  interval_cases n <;> decide

theorem digChar_toNat : ∀ (n : Nat), n < 10 → (digChar n).toNat = 48 + n := by
  intro n h
  interval_cases n <;> decide

theorem digChar_ne_zero : ∀ (n : Nat), 0 < n → n < 10 → ¬ (digChar n = '0') := by
  intro n h0 h
  interval_cases n <;> decide

theorem natReprAux_spec :
    ∀ (f n : Nat), n < f →
      (natReprAux f n).all Char.isDigit = true ∧
      natReprAux f n ≠ [] ∧
      (∀ acc, (natReprAux f n).foldl (fun a c => a * 10 + (c.toNat - 48)) acc
         = acc * 10 ^ (natReprAux f n).length + n) ∧
      (0 < n → ¬ ((natReprAux f n).head? = some '0')) := by
  intro f
  induction f with
  | zero =>
    intro n h
    omega
  | succ g ih =>
    intro n h
    by_cases h10 : n < 10
    · refine ⟨by simp [natReprAux, h10, digChar_isDigit n h10], by simp [natReprAux, h10], ?_, ?_⟩
      · intro acc
        simp [natReprAux, h10, digChar_toNat n h10]
      · intro hpos
        simp only [natReprAux, if_pos h10, List.head?]
        intro hc
        exact digChar_ne_zero n hpos h10 (Option.some_inj.mp hc)
    · have hd : n / 10 < n := Nat.div_lt_self (by omega) (by omega)
      have hg : n / 10 < g := by omega
      obtain ⟨iha, ihne, ihf, ihh⟩ := ih (n / 10) hg
      have hmod : n % 10 < 10 := Nat.mod_lt _ (by omega)
      have heq : natReprAux (g+1) n = natReprAux g (n / 10) ++ [digChar (n % 10)] := by
        simp [natReprAux, h10]
      refine ⟨?_, ?_, ?_, ?_⟩
      · rw [heq, List.all_append]
        simp [iha, digChar_isDigit _ hmod]
      · rw [heq]
        simp
      · intro acc
        rw [heq, List.foldl_append]
        simp only [List.foldl_cons, List.foldl_nil]
        rw [ihf acc, List.length_append, List.length_singleton,
            digChar_toNat _ hmod]
        have hpow : 10 ^ ((natReprAux g (n / 10)).length + 1)
            = 10 ^ (natReprAux g (n / 10)).length * 10 := by ring
        rw [hpow]
        have : (48 + n % 10) - 48 = n % 10 := by omega
        rw [this]
        have hdm : n / 10 * 10 + n % 10 = n := by omega
        ring_nf
        omega
      · intro _
        obtain ⟨c, cs, hcs⟩ : ∃ c cs, natReprAux g (n / 10) = c :: cs := by
          cases hx : natReprAux g (n / 10) with
          | nil => exact absurd hx ihne
          | cons c cs => exact ⟨c, cs, rfl⟩
        rw [heq, hcs]
        simp only [List.cons_append, List.head?]
        intro hc
        apply ihh (by omega)
        rw [hcs]
        simpa using hc

theorem dropWhile_append_all :
    ∀ (p : Char → Bool) (xs ys : Chars), xs.all p = true →
      (xs ++ ys).dropWhile p = ys.dropWhile p := by
  intro p xs ys h
  induction xs with
  | nil => rfl
  | cons c cs ih =>
    rw [List.all_cons, Bool.and_eq_true] at h
    simp [List.dropWhile_cons, h.1, ih h.2]

theorem takeWhile_stop :
    ∀ (p : Char → Bool) (rest : Chars), (∀ c, rest.head? = some c → p c = false) →
      rest.takeWhile p = [] := by
  intro p rest h
  cases rest with
  | nil => rfl
  | cons c r => simp [List.takeWhile_cons, h c rfl]

theorem dropWhile_stop :
    ∀ (p : Char → Bool) (rest : Chars), (∀ c, rest.head? = some c → p c = false) →
      rest.dropWhile p = rest := by
  intro p rest h
  cases rest with
  | nil => rfl
  | cons c r => simp [List.dropWhile_cons, h c rfl]

theorem pNat_natRepr :
    ∀ (n : Nat) (rest : Chars), (∀ c, rest.head? = some c → c.isDigit = false) →
      pNat (natRepr n ++ rest) = some (n, rest) := by
  intro n rest hrest
  by_cases h0 : n = 0
  · subst h0
    have : natRepr 0 = ['0'] := by decide
    rw [this]
    simp [pNat]
  · obtain ⟨hall, hne, hfold, hhead⟩ := natReprAux_spec (n + 1) n (by omega)
    obtain ⟨d, ds, hds⟩ : ∃ d ds, natRepr n = d :: ds := by
      cases hx : natRepr n with
      | nil => exact absurd hx hne
      | cons d ds => exact ⟨d, ds, rfl⟩
    have hd0 : ¬ (d = '0') := by
      intro h
      apply hhead (by omega)
      show (natRepr n).head? = some '0'
      rw [hds, h]
      rfl
    have hddig : d.isDigit = true := by
      have h1 : (natRepr n).all Char.isDigit = true := hall
      rw [hds, List.all_cons, Bool.and_eq_true] at h1
      exact h1.1
    have htake : ((d :: ds) ++ rest).takeWhile Char.isDigit = d :: ds := by
      have h1 : (d :: ds).all Char.isDigit = true := by rw [← hds]; exact hall
      rw [takeWhile_append_all Char.isDigit (d :: ds) rest h1,
          takeWhile_stop Char.isDigit rest hrest]
      simp
    have hdrop : ((d :: ds) ++ rest).dropWhile Char.isDigit = rest := by
      have h1 : (d :: ds).all Char.isDigit = true := by rw [← hds]; exact hall
      rw [dropWhile_append_all Char.isDigit (d :: ds) rest h1,
          dropWhile_stop Char.isDigit rest hrest]
    have hval : digitsVal (d :: ds) = n := by
      show (d :: ds).foldl (fun a c => a * 10 + (c.toNat - 48)) 0 = n
      rw [← hds]
      have := hfold 0
      simpa using this
    rw [hds]
    show pNat (d :: (ds ++ rest)) = some (n, rest)
    simp only [pNat, if_neg hd0, hddig, if_pos rfl, if_true]
    rw [show d :: (ds ++ rest) = (d :: ds) ++ rest from rfl, htake, hdrop, hval]

theorem hexVal_hexDigChar : ∀ (m : Nat), m < 16 → hexVal (hexDigChar m) = some m := by
  intro m h
  interval_cases m <;> decide

theorem escString_cons : ∀ (c : Char) (cs : Chars),
    escString (c :: cs) = escChar c ++ escString cs := by
  intro c cs
  rfl

theorem pStrBody_escString :
    ∀ (s rest : Chars), pStrBody (escString s ++ '"' :: rest) = some (s, rest) := by
  intro s
  induction s with
  | nil =>
    intro rest
    show pStrBody ('"' :: rest) = some ([], rest)
    rw [pStrBody.eq_def]
    simp
  | cons c cs ih =>
    intro rest
    rw [escString_cons, List.append_assoc]
    by_cases h1 : c = '"'
    · subst h1
      show pStrBody (escChar '"' ++ (escString cs ++ '"' :: rest)) = _
      rw [show escChar '"' = ['\\', '"'] from by decide]
      rw [pStrBody.eq_def]
      simp [escCode, ih rest]
    · by_cases h2 : c = '\\'
      · subst h2
        rw [show escChar '\\' = ['\\', '\\'] from by decide]
        rw [pStrBody.eq_def]
        simp [escCode, ih rest]
      · by_cases h3 : c = '\n'
        · subst h3
          rw [show escChar '\n' = ['\\', 'n'] from by decide]
          rw [pStrBody.eq_def]
          simp [escCode, ih rest]
        · by_cases h4 : c = '\t'
          · subst h4
            rw [show escChar '\t' = ['\\', 't'] from by decide]
            rw [pStrBody.eq_def]
            simp [escCode, ih rest]
          · by_cases h5 : c = '\r'
            · subst h5
              rw [show escChar '\r' = ['\\', 'r'] from by decide]
              rw [pStrBody.eq_def]
              simp [escCode, ih rest]
            · by_cases h6 : c = '\x08'
              · subst h6
                rw [show escChar '\x08' = ['\\', 'b'] from by decide]
                rw [pStrBody.eq_def]
                simp [escCode, ih rest]
              · by_cases h7 : c = '\x0c'
                · subst h7
                  rw [show escChar '\x0c' = ['\\', 'f'] from by decide]
                  rw [pStrBody.eq_def]
                  simp [escCode, ih rest]
                · by_cases h8 : c.toNat < 32
                  · have he : escChar c = ['\\', 'u', '0', '0',
                        hexDigChar (c.toNat / 16), hexDigChar (c.toNat % 16)] := by
                      simp only [escChar, if_neg h1, if_neg h2, if_neg h3, if_neg h4,
                        if_neg h5, if_neg h6, if_neg h7, if_pos h8]
                    rw [he]
                    show pStrBody ('\\' :: 'u' :: '0' :: '0' :: hexDigChar (c.toNat / 16) ::
                      hexDigChar (c.toNat % 16) :: (escString cs ++ '"' :: rest)) = _
                    have hx1 : hexVal (hexDigChar (c.toNat / 16)) = some (c.toNat / 16) :=
                      hexVal_hexDigChar _ (by omega)
                    have hx2 : hexVal (hexDigChar (c.toNat % 16)) = some (c.toNat % 16) :=
                      hexVal_hexDigChar _ (by omega)
                    have hn : ((0 * 16 + 0) * 16 + c.toNat / 16) * 16 + c.toNat % 16
                        = c.toNat := by omega
                    have hord : c.toNat < 55296 := by omega
                    have hz : hexVal '0' = some 0 := by decide
                    rw [pStrBody.eq_def]
                    simp [hz, hx1, hx2, hn, hord, ih rest, Char.ofNat_toNat]
                    refine ⟨by omega, ?_⟩
                    rw [show c.toNat / 16 * 16 + c.toNat % 16 = c.toNat from by omega,
                        Char.ofNat_toNat]
                  · have he : escChar c = [c] := by
                      simp only [escChar, if_neg h1, if_neg h2, if_neg h3, if_neg h4,
                        if_neg h5, if_neg h6, if_neg h7, if_neg h8]
                    rw [he]
                    show pStrBody (c :: (escString cs ++ '"' :: rest)) = _
                    rw [pStrBody.eq_def]
                    simp [h1, h2, h8, ih rest]

theorem isDigit_not_ws : ∀ (c : Char), c.isDigit = true → isJsonWs c = false := by
  intro c h
  by_contra hw
  rw [Bool.not_eq_false] at hw
  simp only [isJsonWs, Bool.or_eq_true, decide_eq_true_eq] at hw
  rcases hw with ((hc | hc) | hc) | hc <;> rw [hc] at h <;> exact absurd h (by decide)

theorem isDigit_ne : ∀ (c d : Char), c.isDigit = true → d.isDigit = false → ¬ (c = d) := by
  intro c d hc hd h
  rw [h] at hc
  rw [hc] at hd
  cases hd

theorem natRepr_shape :
    ∀ (n : Nat), ∃ d ds, natRepr n = d :: ds ∧ d.isDigit = true ∧
      (d :: ds).all Char.isDigit = true := by
  intro n
  obtain ⟨hall, hne, _, _⟩ := natReprAux_spec (n + 1) n (by omega)
  obtain ⟨d, ds, hds⟩ : ∃ d ds, natRepr n = d :: ds := by
    cases hx : natRepr n with
    | nil => exact absurd hx hne
    | cons d ds => exact ⟨d, ds, rfl⟩
  have h1 : (d :: ds).all Char.isDigit = true := by rw [← hds]; exact hall
  rw [List.all_cons, Bool.and_eq_true] at h1
  exact ⟨d, ds, hds, h1.1, by rw [← hds]; exact hall⟩

theorem dumps_head :
    ∀ (v : JVal), ∃ c cs, dumps v = c :: cs ∧ isJsonWs c = false ∧
      ¬ (c = ']') ∧ ¬ (c = cbr) := by
  intro v
  cases v with
  | null => exact ⟨'n', ['u', 'l', 'l'], rfl, by decide, by decide, by decide⟩
  | bool b =>
    cases b with
    | true => exact ⟨'t', ['r', 'u', 'e'], rfl, by decide, by decide, by decide⟩
    | false => exact ⟨'f', ['a', 'l', 's', 'e'], rfl, by decide, by decide, by decide⟩
  | int n =>
    by_cases hn : n < 0
    · refine ⟨'-', natRepr (-n).toNat, ?_, by decide, by decide, by decide⟩
      show intRepr n = _
      simp [intRepr, hn]
    · obtain ⟨d, ds, hds, hdig, _⟩ := natRepr_shape n.toNat
      refine ⟨d, ds, ?_, isDigit_not_ws d hdig, ?_, ?_⟩
      · show intRepr n = _
        simp [intRepr, hn, hds]
      · exact isDigit_ne d ']' hdig (by decide)
      · exact isDigit_ne d cbr hdig (by decide)
  | str s => exact ⟨'"', escString s ++ ['"'], rfl, by decide, by decide, by decide⟩
  | arr xs => exact ⟨'[', dumpsArr xs ++ [']'], rfl, by decide, by decide, by decide⟩
  | obj fs => exact ⟨obr, dumpsObj fs ++ [cbr], rfl, by decide, by decide, by decide⟩

theorem skipWs_cons_not_ws :
    ∀ (c : Char) (r : Chars), isJsonWs c = false → skipWs (c :: r) = c :: r := by
  intro c r h
  simp [skipWs, List.dropWhile_cons, h]

theorem skipWs_space : ∀ (r : Chars), skipWs (' ' :: r) = skipWs r := by
  intro r
  simp [skipWs, List.dropWhile_cons, show isJsonWs ' ' = true from by decide]

theorem skipWs_dumps :
    ∀ (v : JVal) (rest : Chars), skipWs (dumps v ++ rest) = dumps v ++ rest := by
  intro v rest
  obtain ⟨c, cs, heq, hws, _, _⟩ := dumps_head v
  rw [heq, List.cons_append, skipWs_cons_not_ws c (cs ++ rest) hws]

theorem intRepr_ne_nil : ∀ (n : Int), intRepr n ≠ [] := by
  intro n
  by_cases hn : n < 0
  · simp [intRepr, hn]
  · obtain ⟨d, ds, hds, _, _⟩ := natRepr_shape n.toNat
    simp [intRepr, hn, hds]

theorem mVal_pos : ∀ (v : JVal), 1 ≤ mVal v := by
  intro v
  cases v <;> simp [mVal]

theorem mVal_le_dumps :
    ∀ (N : Nat),
      (∀ v : JVal, sizeOf v ≤ N → mVal v ≤ (dumps v).length) ∧
      (∀ xs : JArr, sizeOf xs ≤ N → mArr xs ≤ (dumpsArr xs).length + 1) ∧
      (∀ fs : JObj, sizeOf fs ≤ N → mObj fs ≤ (dumpsObj fs).length + 1) := by
  intro N
  induction N using Nat.strong_induction_on with
  | _ N ih =>
    refine ⟨?_, ?_, ?_⟩
    · intro v hv
      cases v with
      | null => simp [mVal, dumps]
      | bool b => cases b <;> simp [mVal, dumps]
      | int n =>
        have h1 : 1 ≤ (intRepr n).length := by
          cases hx : intRepr n with
          | nil => exact absurd hx (intRepr_ne_nil n)
          | cons _ _ => simp
        simpa [mVal, dumps] using h1
      | str s => simp [mVal, dumps]
      | arr xs =>
        have hs : sizeOf (JVal.arr xs) = 1 + sizeOf xs := by simp
        have hle : sizeOf xs ≤ N - 1 := by omega
        have harr := (ih (N - 1) (by omega)).2.1 xs hle
        simp only [mVal, dumps, List.length_cons, List.length_append,
          List.length_singleton]
        omega
      | obj fs =>
        have hs : sizeOf (JVal.obj fs) = 1 + sizeOf fs := by simp
        have hle : sizeOf fs ≤ N - 1 := by omega
        have hobj := (ih (N - 1) (by omega)).2.2 fs hle
        simp only [mVal, dumps, List.length_cons, List.length_append,
          List.length_singleton]
        omega
    · intro xs hxs
      cases xs with
      | nil => simp [mArr, dumpsArr]
      | cons x tl =>
        have hs : sizeOf (JArr.cons x tl) = 1 + sizeOf x + sizeOf tl := by simp
        have hx : sizeOf x ≤ N - 1 := by omega
        have hval := (ih (N - 1) (by omega)).1 x hx
        cases tl with
        | nil =>
          simp only [mArr, dumpsArr]
          omega
        | cons y tl2 =>
          have htl : sizeOf (JArr.cons y tl2) ≤ N - 1 := by omega
          have harr := (ih (N - 1) (by omega)).2.1 (JArr.cons y tl2) htl
          simp only [mArr, dumpsArr, List.length_append, List.length_cons] at harr ⊢
          omega
    · intro fs hfs
      cases fs with
      | nil => simp [mObj, dumpsObj]
      | cons k v tl =>
        have hs : sizeOf (JObj.cons k v tl) = 1 + sizeOf k + sizeOf v + sizeOf tl := by simp
        have hv : sizeOf v ≤ N - 1 := by omega
        have hval := (ih (N - 1) (by omega)).1 v hv
        cases tl with
        | nil =>
          simp only [mObj, dumpsObj, List.length_cons, List.length_append]
          omega
        | cons k2 v2 tl2 =>
          have htl : sizeOf (JObj.cons k2 v2 tl2) ≤ N - 1 := by omega
          have hobj := (ih (N - 1) (by omega)).2.2 (JObj.cons k2 v2 tl2) htl
          simp only [mObj, dumpsObj, List.length_append, List.length_cons] at hobj ⊢
          omega

theorem head_cons_not_digit :
    ∀ (d : Char) (r : Chars), d.isDigit = false →
      ∀ c, (d :: r).head? = some c → c.isDigit = false := by
  intro d r hd c hc
  simp only [List.head?, Option.some_inj] at hc
  rw [← hc]
  exact hd

theorem dumpsArr_cons_head :
    ∀ (x : JVal) (tl : JArr), ∃ c t, dumpsArr (JArr.cons x tl) = c :: t ∧
      isJsonWs c = false ∧ ¬ (c = ']') ∧ ¬ (c = cbr) := by
  intro x tl
  obtain ⟨c, cs, hcx, hws, hnb, hncb⟩ := dumps_head x
  cases tl with
  | nil => exact ⟨c, cs, by simp [dumpsArr, hcx], hws, hnb, hncb⟩
  | cons y tl2 =>
    exact ⟨c, cs ++ ',' :: ' ' :: dumpsArr (JArr.cons y tl2),
      by simp [dumpsArr, hcx], hws, hnb, hncb⟩

theorem dumpsObj_cons_head :
    ∀ (k : Chars) (v : JVal) (tl : JObj), ∃ t,
      dumpsObj (JObj.cons k v tl) = '"' :: t := by
  intro k v tl
  cases tl with
  | nil => exact ⟨escString k ++ '"' :: ':' :: ' ' :: dumps v, by simp [dumpsObj]⟩
  | cons k2 v2 tl2 =>
    exact ⟨(escString k ++ '"' :: ':' :: ' ' :: dumps v) ++
      ',' :: ' ' :: dumpsObj (JObj.cons k2 v2 tl2), by simp [dumpsObj]⟩

theorem parse_dumps :
    ∀ (f : Nat),
      (∀ (v : JVal) (rest : Chars), mVal v ≤ f →
        (∀ c, rest.head? = some c → c.isDigit = false) →
        pVal f (dumps v ++ rest) = some (v, rest)) ∧
      (∀ (xs : JArr) (rest : Chars), ¬ (xs = .nil) → mArr xs ≤ f →
        pElems f (dumpsArr xs ++ ']' :: rest) = some (xs, rest)) ∧
      (∀ (fs : JObj) (rest : Chars), ¬ (fs = .nil) → mObj fs ≤ f →
        pFields f (dumpsObj fs ++ cbr :: rest) = some (fs, rest)) := by
  intro f
  induction f with
  | zero =>
    refine ⟨?_, ?_, ?_⟩
    · intro v rest hm _
      have := mVal_pos v
      omega
    · intro xs rest hne hm
      cases xs with
      | nil => exact absurd rfl hne
      | cons x tl =>
        have := mVal_pos x
        simp only [mArr] at hm
        omega
    · intro fs rest hne hm
      cases fs with
      | nil => exact absurd rfl hne
      | cons k v tl =>
        have := mVal_pos v
        simp only [mObj] at hm
        omega
  | succ f ih =>
    obtain ⟨ihP, ihQ, ihR⟩ := ih
    refine ⟨?_, ?_, ?_⟩
    · intro v rest hm hrest
      cases v with
      | null =>
        show pVal (f+1) ('n' :: 'u' :: 'l' :: 'l' :: rest) = _
        simp [pVal]
      | bool b =>
        cases b with
        | true =>
          show pVal (f+1) ('t' :: 'r' :: 'u' :: 'e' :: rest) = _
          simp [pVal]
        | false =>
          show pVal (f+1) ('f' :: 'a' :: 'l' :: 's' :: 'e' :: rest) = _
          simp [pVal]
      | int n =>
        by_cases hn : n < 0
        · have hshape : dumps (.int n) ++ rest = '-' :: (natRepr (-n).toNat ++ rest) := by
            simp [dumps, intRepr, hn]
          rw [hshape]
          have hpn := pNat_natRepr (-n).toNat rest hrest
          simp [pVal, obr, hpn]
          omega
        · obtain ⟨d, ds, hds, hdig, _⟩ := natRepr_shape n.toNat
          have hshape : dumps (.int n) ++ rest = d :: (ds ++ rest) := by
            simp [dumps, intRepr, hn, hds]
          rw [hshape]
          have hpn := pNat_natRepr n.toNat rest hrest
          rw [hds] at hpn
          have h1 : ¬ (d = 'n') := isDigit_ne d 'n' hdig (by decide)
          have h2 : ¬ (d = 't') := isDigit_ne d 't' hdig (by decide)
          have h3 : ¬ (d = 'f') := isDigit_ne d 'f' hdig (by decide)
          have h4 : ¬ (d = '"') := isDigit_ne d '"' hdig (by decide)
          have h5 : ¬ (d = '[') := isDigit_ne d '[' hdig (by decide)
          have h6 : ¬ (d = obr) := isDigit_ne d obr hdig (by decide)
          have h7 : ¬ (d = '-') := isDigit_ne d '-' hdig (by decide)
          have hcons : d :: (ds ++ rest) = (d :: ds) ++ rest := rfl
          simp only [pVal, if_neg h1, if_neg h2, if_neg h3, if_neg h4, if_neg h5,
            if_neg h6, if_neg h7, hdig, if_pos rfl, if_true, hcons, hpn]
          simp
          omega
      | str s =>
        have hshape : dumps (.str s) ++ rest = '"' :: (escString s ++ '"' :: rest) := by
          simp [dumps]
        rw [hshape]
        simp [pVal, pStrBody_escString s rest]
      | arr xs =>
        cases xs with
        | nil =>
          show pVal (f+1) ('[' :: ']' :: rest) = _
          have hsw : skipWs (']' :: rest) = ']' :: rest :=
            skipWs_cons_not_ws ']' rest (by decide)
          simp [pVal, hsw]
        | cons x tl =>
          have hshape : dumps (.arr (JArr.cons x tl)) ++ rest
              = '[' :: (dumpsArr (JArr.cons x tl) ++ ']' :: rest) := by
            simp [dumps]
          rw [hshape]
          obtain ⟨c, t, hct, hws, hnb, _⟩ := dumpsArr_cons_head x tl
          have hshape2 : dumpsArr (JArr.cons x tl) ++ ']' :: rest
              = c :: (t ++ ']' :: rest) := by rw [hct]; rfl
          have hsw : skipWs (c :: (t ++ ']' :: rest)) = c :: (t ++ ']' :: rest) :=
            skipWs_cons_not_ws c _ hws
          have hq := ihQ (JArr.cons x tl) rest (by intro h; cases h)
            (by simp only [mVal] at hm; omega)
          rw [hshape2] at hq
          simp [pVal, hshape2, hsw, hnb, hq]
      | obj fs =>
        cases fs with
        | nil =>
          show pVal (f+1) (obr :: cbr :: rest) = _
          have hsw : skipWs (cbr :: rest) = cbr :: rest :=
            skipWs_cons_not_ws cbr rest (by decide)
          simp [pVal, obr, hsw]
        | cons k v tl =>
          have hshape : dumps (.obj (JObj.cons k v tl)) ++ rest
              = obr :: (dumpsObj (JObj.cons k v tl) ++ cbr :: rest) := by
            simp [dumps]
          rw [hshape]
          obtain ⟨t, hct⟩ := dumpsObj_cons_head k v tl
          have hshape2 : dumpsObj (JObj.cons k v tl) ++ cbr :: rest
              = '"' :: (t ++ cbr :: rest) := by rw [hct]; rfl
          have hsw : skipWs ('"' :: (t ++ cbr :: rest)) = '"' :: (t ++ cbr :: rest) :=
            skipWs_cons_not_ws '"' _ (by decide)
          have hr := ihR (JObj.cons k v tl) rest (by intro h; cases h)
            (by simp only [mVal] at hm; omega)
          rw [hshape2] at hr
          have hqc : ¬ ('"' = cbr) := by decide
          simp [pVal, obr, hshape2, hsw, hr, hqc]
    · intro xs rest hne hm
      cases xs with
      | nil => exact absurd rfl hne
      | cons x tl =>
        cases tl with
        | nil =>
          show pElems (f+1) (dumps x ++ ']' :: rest) = _
          have hp := ihP x (']' :: rest)
            (by simp only [mArr, mArr] at hm; omega)
            (head_cons_not_digit ']' rest (by decide))
          have hsw : skipWs (']' :: rest) = ']' :: rest :=
            skipWs_cons_not_ws ']' rest (by decide)
          simp [pElems, hp, hsw]
        | cons y tl2 =>
          have hshape : dumpsArr (JArr.cons x (JArr.cons y tl2)) ++ ']' :: rest
              = dumps x ++ (',' :: ' ' :: (dumpsArr (JArr.cons y tl2) ++ ']' :: rest)) := by
            simp [dumpsArr]
          rw [hshape]
          have hp := ihP x (',' :: ' ' :: (dumpsArr (JArr.cons y tl2) ++ ']' :: rest))
            (by simp only [mArr] at hm; omega)
            (head_cons_not_digit ',' _ (by decide))
          have hsw1 : skipWs (',' :: ' ' :: (dumpsArr (JArr.cons y tl2) ++ ']' :: rest))
              = ',' :: ' ' :: (dumpsArr (JArr.cons y tl2) ++ ']' :: rest) :=
            skipWs_cons_not_ws ',' _ (by decide)
          obtain ⟨c, t, hct, hws, _, _⟩ := dumpsArr_cons_head y tl2
          have hshape2 : dumpsArr (JArr.cons y tl2) ++ ']' :: rest
              = c :: (t ++ ']' :: rest) := by rw [hct]; rfl
          have hsw2 : skipWs (' ' :: (dumpsArr (JArr.cons y tl2) ++ ']' :: rest))
              = dumpsArr (JArr.cons y tl2) ++ ']' :: rest := by
            rw [skipWs_space, hshape2, skipWs_cons_not_ws c _ hws]
          have hq := ihQ (JArr.cons y tl2) rest (by intro h; cases h)
            (by simp only [mArr] at hm ⊢; omega)
          simp [pElems, hp, hsw1, hsw2, hq]
    · intro fs rest hne hm
      cases fs with
      | nil => exact absurd rfl hne
      | cons k v tl =>
        cases tl with
        | nil =>
          have hshape : dumpsObj (JObj.cons k v JObj.nil) ++ cbr :: rest
              = '"' :: (escString k ++ '"' :: (':' :: ' ' :: (dumps v ++ cbr :: rest))) := by
            simp [dumpsObj]
          rw [hshape]
          have hk := pStrBody_escString k (':' :: ' ' :: (dumps v ++ cbr :: rest))
          have hsw1 : skipWs (':' :: ' ' :: (dumps v ++ cbr :: rest))
              = ':' :: ' ' :: (dumps v ++ cbr :: rest) :=
            skipWs_cons_not_ws ':' _ (by decide)
          have hsw2 : skipWs (' ' :: (dumps v ++ cbr :: rest)) = dumps v ++ cbr :: rest := by
            rw [skipWs_space, skipWs_dumps]
          have hp := ihP v (cbr :: rest)
            (by simp only [mObj] at hm; omega)
            (head_cons_not_digit cbr rest (by decide))
          have hsw3 : skipWs (cbr :: rest) = cbr :: rest :=
            skipWs_cons_not_ws cbr rest (by decide)
          have hc1 : ¬ (cbr = ',') := by decide
          simp [pFields, hk, hsw1, hsw2, hp, hsw3, obr, hc1]
        | cons k2 v2 tl2 =>
          have hshape : dumpsObj (JObj.cons k v (JObj.cons k2 v2 tl2)) ++ cbr :: rest
              = '"' :: (escString k ++ '"' :: (':' :: ' ' ::
                  (dumps v ++ ',' :: ' ' :: (dumpsObj (JObj.cons k2 v2 tl2) ++ cbr :: rest)))) := by
            simp [dumpsObj]
          rw [hshape]
          have hk := pStrBody_escString k
            (':' :: ' ' :: (dumps v ++ ',' :: ' ' :: (dumpsObj (JObj.cons k2 v2 tl2) ++ cbr :: rest)))
          have hsw1 : skipWs (':' :: ' ' ::
              (dumps v ++ ',' :: ' ' :: (dumpsObj (JObj.cons k2 v2 tl2) ++ cbr :: rest)))
              = ':' :: ' ' ::
              (dumps v ++ ',' :: ' ' :: (dumpsObj (JObj.cons k2 v2 tl2) ++ cbr :: rest)) :=
            skipWs_cons_not_ws ':' _ (by decide)
          have hsw2 : skipWs (' ' ::
              (dumps v ++ ',' :: ' ' :: (dumpsObj (JObj.cons k2 v2 tl2) ++ cbr :: rest)))
              = dumps v ++ ',' :: ' ' :: (dumpsObj (JObj.cons k2 v2 tl2) ++ cbr :: rest) := by
            rw [skipWs_space, skipWs_dumps]
          have hp := ihP v (',' :: ' ' :: (dumpsObj (JObj.cons k2 v2 tl2) ++ cbr :: rest))
            (by simp only [mObj] at hm; omega)
            (head_cons_not_digit ',' _ (by decide))
          have hsw3 : skipWs (',' :: ' ' :: (dumpsObj (JObj.cons k2 v2 tl2) ++ cbr :: rest))
              = ',' :: ' ' :: (dumpsObj (JObj.cons k2 v2 tl2) ++ cbr :: rest) :=
            skipWs_cons_not_ws ',' _ (by decide)
          obtain ⟨t, hct⟩ := dumpsObj_cons_head k2 v2 tl2
          have hshape2 : dumpsObj (JObj.cons k2 v2 tl2) ++ cbr :: rest
              = '"' :: (t ++ cbr :: rest) := by rw [hct]; rfl
          have hsw4 : skipWs (' ' :: (dumpsObj (JObj.cons k2 v2 tl2) ++ cbr :: rest))
              = dumpsObj (JObj.cons k2 v2 tl2) ++ cbr :: rest := by
            rw [skipWs_space, hshape2, skipWs_cons_not_ws '"' _ (by decide)]
          have hr := ihR (JObj.cons k2 v2 tl2) rest (by intro h; cases h)
            (by simp only [mObj] at hm ⊢; omega)
          simp [pFields, hk, hsw1, hsw2, hp, hsw3, hsw4, hr, obr]

theorem parseJson_dumps : ∀ (v : JVal), parseJson (dumps v) = some v := by
  intro v
  have hm : mVal v ≤ (dumps v).length := (mVal_le_dumps (sizeOf v)).1 v (Nat.le_refl _)
  have hsw : skipWs (dumps v) = dumps v := by
    obtain ⟨c, cs, heq, hws, _, _⟩ := dumps_head v
    rw [heq, skipWs_cons_not_ws c cs hws]
  have hp : pVal ((dumps v).length + 1) (dumps v ++ []) = some (v, []) :=
    (parse_dumps ((dumps v).length + 1)).1 v [] (by omega)
      (by intro c hc; cases hc)
  rw [List.append_nil] at hp
  show (match pVal ((skipWs (dumps v)).length + 1) (skipWs (dumps v)) with
    | some (w, rest) => if skipWs rest = [] then some w else none
    | none => none) = some v
  rw [hsw, hp]
  rfl

/-- C7: `to_string_map` sends each dict or list value to JSON text (with the
default compact separators) that parses back to an equal structure, each
`None` value to the empty string, and each other scalar to its plain
Python string representation `str(value)`. -/
theorem to_string_map_spec :
    ∀ (d : List (Chars × JVal)) (k : Chars) (v : JVal), (k, v) ∈ d →
      (k, strVal v) ∈ to_string_map d ∧
      (∀ fs, v = .obj fs → parseJson (strVal v) = some v) ∧
      (∀ xs, v = .arr xs → parseJson (strVal v) = some v) ∧
      (v = .null → strVal v = []) ∧
      (∀ b, v = .bool b → strVal v = pyStrJ v) ∧
      (∀ n, v = .int n → strVal v = pyStrJ v) ∧
      (∀ s, v = .str s → strVal v = pyStrJ v) := by
  intro d k v hmem
  refine ⟨?_, ?_, ?_, ?_, ?_, ?_, ?_⟩
  · exact List.mem_map.mpr ⟨(k, v), hmem, rfl⟩
  · intro fs hv
    subst hv
    exact parseJson_dumps (.obj fs)
  · intro xs hv
    subst hv
    exact parseJson_dumps (.arr xs)
  · intro hv
    subst hv
    rfl
  · intro b hv
    subst hv
    cases b <;> rfl
  · intro n hv
    subst hv
    rfl
  · intro s hv
    subst hv
    rfl

theorem to_string_map_spec_witness :
    parseJson (strVal (JVal.obj (JObj.cons "a".data (JVal.int 1) JObj.nil)))
      = some (JVal.obj (JObj.cons "a".data (JVal.int 1) JObj.nil)) :=
  (to_string_map_spec
      [("cfg".data, JVal.obj (JObj.cons "a".data (JVal.int 1) JObj.nil))]
      "cfg".data (JVal.obj (JObj.cons "a".data (JVal.int 1) JObj.nil))
      (by decide)).2.1
    (JObj.cons "a".data (JVal.int 1) JObj.nil) rfl
